import Mathlib

/-
Verification of the camino-fs directory-walker and tree-operation design
against its implementation (src/lib.rs, src/ls.rs, src/fs.rs).

Paths are modelled as lists of UTF-8 components (`List String`).  The
filesystem is an oracle (`FS`): metadata queries `is_dir` / `is_file` and the
`read_dir_utf8` listing, which can fail as a whole (`Except.error`) or per
entry (`EntryRes.err`).  A directory entry produced by `read_dir_utf8` carries
the full path `dir/name`, modelled here as `dir ++ [name]`.
-/

namespace CaminoFs

abbrev Path := List String

/-- One item of a directory listing: either a child name, or a per-entry read
error (each item of `read_dir_utf8` is an `io::Result<Utf8DirEntry>`). -/
inductive EntryRes where
  | ok (name : String)
  | err
deriving DecidableEq

/-- Filesystem oracle: `is_dir`, `is_file` metadata queries and the
`read_dir_utf8` listing. -/
structure FS where
  isDir : Path → Bool
  isFile : Path → Bool
  listDir : Path → Except Unit (List EntryRes)

/-- The `LsFilter` enum of ls.rs (lines 5-9). -/
inductive LsFilter where
  | all
  | files
  | dirs
deriving DecidableEq

/-- The `Ls` walker struct of ls.rs (lines 11-18): configuration plus the
pending FIFO queue (`VecDeque`, front at the head of the list). -/
structure Ls where
  recurse_if_fn : Path → Bool
  relative_paths : Bool
  path : Path
  filter : LsFilter
  initialized : Bool
  entries : List Path

/-- `Ls::new` (ls.rs lines 21-30). -/
def Ls.new (path : Path) : Ls :=
  { recurse_if_fn := fun _ => false
    relative_paths := false
    path := path
    filter := LsFilter.all
    initialized := false
    entries := [] }

/-- `Ls::relative_paths` (ls.rs lines 35-38); primed because the Rust method
shares its name with the struct field. -/
def Ls.relative_paths' (ls : Ls) : Ls :=
  { ls with relative_paths := true }

/-- `Ls::recurse_if` (ls.rs lines 43-46). -/
def Ls.recurse_if (ls : Ls) (predicate : Path → Bool) : Ls :=
  { ls with recurse_if_fn := predicate }

/-- `Ls::recurse` (ls.rs lines 49-51). -/
def Ls.recurse (ls : Ls) : Ls :=
  ls.recurse_if (fun _ => true)

/-- `Ls::files` (ls.rs lines 54-59). -/
def Ls.files (ls : Ls) : Ls :=
  { ls with filter := LsFilter.files }

/-- `Ls::dirs` (ls.rs lines 62-67). -/
def Ls.dirs (ls : Ls) : Ls :=
  { ls with filter := LsFilter.dirs }

/-- `Ls::add_dir_entries` (ls.rs lines 76-82): a failed `read_dir_utf8` adds
nothing; otherwise the readable entries are appended at the back of the queue
(`VecDeque::extend`) and per-entry errors are skipped (`filter_map(e.ok())`). -/
def Ls.add_dir_entries (fs : FS) (entries : List Path) (dir : Path) : List Path :=
  match fs.listDir dir with
  | Except.error _ => entries
  | Except.ok es =>
    entries ++ es.filterMap (fun e =>
      match e with
      | EntryRes.ok name => some (dir ++ [name])
      | EntryRes.err => none)

/-- The children a directory contributes in the best-effort walker:
`add_dir_entries` starting from an empty queue. -/
def lsKids (fs : FS) (dir : Path) : List Path :=
  match fs.listDir dir with
  | Except.error _ => []
  | Except.ok es =>
    es.filterMap (fun e =>
      match e with
      | EntryRes.ok name => some (dir ++ [name])
      | EntryRes.err => none)

/-- The filter test of `Ls::next` (ls.rs lines 103-108), applied to the
already-converted path. -/
def passesFilter (fs : FS) (f : LsFilter) (p : Path) : Bool :=
  match f with
  | LsFilter.all => true
  | LsFilter.files => fs.isFile p
  | LsFilter.dirs => fs.isDir p

/-- Observation record for one iteration of the `while let` loop of
`Ls::next`: the dequeued path, the argument the recursion predicate was asked
about (if any), whether the entry was expanded, the path after the
`relative_paths` conversion, and the yielded value (if the filter passed). -/
structure StepLog where
  popped : Path
  recurseAsked : Option Path
  expanded : Bool
  converted : Path
  output : Option Path
deriving DecidableEq

/-- One iteration of the loop body of `Ls::next` (ls.rs lines 94-108), with
`path` already popped from the front and `rest` the remaining queue.
`strip_prefix(&self.path).unwrap()` is modelled as `drop ls.path.length`,
which agrees with it on every reachable queue entry (each queue entry extends
the base path, see `queue_extends_base`).  The `&&` of line 97 short-circuits:
the predicate is consulted only when `is_dir` holds (`recurseAsked`). -/
def Ls.popStep (fs : FS) (ls : Ls) (path : Path) (rest : List Path) : StepLog × Ls :=
  let rel_path := path.drop ls.path.length
  let asked := if fs.isDir path then some rel_path else none
  let expand :=
    match asked with
    | some r => ls.recurse_if_fn r
    | none => false
  let entries1 := if expand then Ls.add_dir_entries fs rest path else rest
  let outPath := if ls.relative_paths then rel_path else path
  ({ popped := path
     recurseAsked := asked
     expanded := expand
     converted := outPath
     output := if passesFilter fs ls.filter outPath then some outPath else none },
   { ls with entries := entries1 })

/-- The lazy initialization at the top of `Ls::next` (ls.rs lines 89-92). -/
def Ls.initStep (fs : FS) (ls : Ls) : Ls :=
  if ls.initialized then ls
  else { ls with entries := Ls.add_dir_entries fs ls.entries ls.path, initialized := true }

/-- The sequence of loop iterations an (initialized) walker performs, with
`fuel` bounding the number of dequeues.  Collecting the Rust iterator performs
exactly these iterations in this order. -/
def Ls.stepsAux (fs : FS) : Nat → Ls → List StepLog
  | 0, _ => []
  | fuel+1, ls =>
    match ls.entries with
    | [] => []
    | p :: rest =>
      let pr := Ls.popStep fs ls p rest
      pr.1 :: Ls.stepsAux fs fuel pr.2

/-- The instrumented run of a walker: initialize lazily, then iterate. -/
def Ls.steps (fs : FS) (fuel : Nat) (ls : Ls) : List StepLog :=
  Ls.stepsAux fs fuel (Ls.initStep fs ls)

/-- The walker state after `fuel` dequeues (initialization not yet applied). -/
def Ls.execAux (fs : FS) : Nat → Ls → Ls
  | 0, ls => ls
  | fuel+1, ls =>
    match ls.entries with
    | [] => ls
    | p :: rest => Ls.execAux fs fuel (Ls.popStep fs ls p rest).2

/-- The walker state after initialization and `fuel` dequeues. -/
def Ls.exec (fs : FS) (fuel : Nat) (ls : Ls) : Ls :=
  Ls.execAux fs fuel (Ls.initStep fs ls)

/-- The sequence of paths the best-effort walker yields (its `collect()`),
`fuel` bounding the number of dequeues. -/
def Ls.run (fs : FS) (fuel : Nat) (ls : Ls) : List Path :=
  (Ls.steps fs fuel ls).filterMap (fun log => log.output)

/-- The `TryLsIter` struct of ls.rs (lines 114-118).  Its own `initialized`
and `entries` fields are used; the embedded `Ls` only supplies the
configuration. -/
structure TryLsIter where
  ls : Ls
  initialized : Bool
  entries : List Path

/-- `Ls::try_iter` / `TryLsIter::new` (ls.rs lines 72-74 and 121-127). -/
def Ls.try_iter (ls : Ls) : TryLsIter :=
  { ls := ls, initialized := false, entries := [] }

/-- The `for entry in dir.read_dir_utf8()? { entries.push_back(entry?...) }`
loop of `TryLsIter::add_dir_entries` (ls.rs lines 130-132): entries are pushed
one by one, so the ones pushed before a failing entry stay in the queue. -/
def TryLsIter.pushAll (dir : Path) (acc : List Path) :
    List EntryRes → List Path × Except Unit Unit
  | [] => (acc, Except.ok ())
  | EntryRes.ok name :: es => TryLsIter.pushAll dir (acc ++ [dir ++ [name]]) es
  | EntryRes.err :: _ => (acc, Except.error ())

/-- `TryLsIter::add_dir_entries` (ls.rs lines 129-134): the resulting queue
together with the propagated `io::Result`. -/
def TryLsIter.add_dir_entries (fs : FS) (entries : List Path) (dir : Path) :
    List Path × Except Unit Unit :=
  match fs.listDir dir with
  | Except.error e => (entries, Except.error e)
  | Except.ok es => TryLsIter.pushAll dir entries es

/-- The loop body of `TryLsIter::try_next_unfiltered` (ls.rs lines 141-151)
for a popped `path` and remaining queue `rest`.  On a listing failure during
expansion the already-pushed children stay queued, the popped entry is lost,
and the error propagates (`?` on line 145). -/
def TryLsIter.popBody (fs : FS) (it : TryLsIter) (path : Path) (rest : List Path) :
    Except Unit (Option Path) × TryLsIter :=
  let rel_path := path.drop it.ls.path.length
  if fs.isDir path && it.ls.recurse_if_fn rel_path then
    match TryLsIter.add_dir_entries fs rest path with
    | (es, Except.error e) => (Except.error e, { it with entries := es })
    | (es, Except.ok _) =>
      let outPath := if it.ls.relative_paths then rel_path else path
      (Except.ok (some outPath), { it with entries := es })
  else
    let outPath := if it.ls.relative_paths then rel_path else path
    (Except.ok (some outPath), { it with entries := rest })

/-- `TryLsIter::try_next_unfiltered` (ls.rs lines 136-153).  Note that on an
initialization failure (`?` on line 138) `initialized` is NOT set, so the next
pull lists the base directory again. -/
def TryLsIter.try_next_unfiltered (fs : FS) (it : TryLsIter) :
    Except Unit (Option Path) × TryLsIter :=
  if it.initialized then
    match it.entries with
    | [] => (Except.ok none, it)
    | p :: rest => TryLsIter.popBody fs it p rest
  else
    match TryLsIter.add_dir_entries fs it.entries it.ls.path with
    | (es, Except.error e) => (Except.error e, { it with entries := es })
    | (es, Except.ok _) =>
      let it1 : TryLsIter := { it with entries := es, initialized := true }
      match it1.entries with
      | [] => (Except.ok none, it1)
      | p :: rest => TryLsIter.popBody fs it1 p rest

/-- `impl Iterator for TryLsIter`, `next` (ls.rs lines 156-171).  The filter
arms `Files if path.is_file()` / `Dirs if path.is_dir()` fall through to
`_ => None` when the guard fails. -/
def TryLsIter.next (fs : FS) (it : TryLsIter) :
    Option (Except Unit Path) × TryLsIter :=
  match TryLsIter.try_next_unfiltered fs it with
  | (Except.ok (some path), it1) =>
    (match it1.ls.filter with
     | LsFilter.all => some (Except.ok path)
     | LsFilter.files => if fs.isFile path then some (Except.ok path) else none
     | LsFilter.dirs => if fs.isDir path then some (Except.ok path) else none,
     it1)
  | (Except.ok none, it1) => (none, it1)
  | (Except.error e, it1) => (some (Except.error e), it1)

/-! Recursive copy (`Utf8Path::cp`, lib.rs lines 134-160).  The destination
side is observed through a trace of attempted primitive operations; the
outcome of each primitive is supplied by oracles in `CpWorld`.  Error codes
are opaque naturals so that "returns that error" is expressible. -/

/-- A destination-side primitive attempted by `cp`. -/
inductive CpOp where
  | mkdirAll (p : Path)
  | createDir (p : Path)
  | copyFile (src dst : Path)
deriving DecidableEq

/-- The result of `cp`: the `NotFound` of `assert_exists`, the
`InvalidInput` of `assert_dir`, or a wrapped primitive failure. -/
inductive CpErr where
  | notFound
  | notDir
  | prim (e : Nat)
deriving DecidableEq

/-- World for `cp`: the source-side oracle `fs`, the `exists()` metadata
query, and result oracles for the destination-side primitives
(`fs_create_dir_all`, `fs_create_dir`, `fs_copy`). -/
structure CpWorld where
  fs : FS
  pathExists : Path → Bool
  mkdirAllRes : Path → Except Nat Unit
  createDirRes : Path → Except Nat Unit
  copyRes : Path → Path → Except Nat Unit

/-- What `Ls::new(dir).collect()` produces: the default walker has no
recursion, the `All` filter and absolute paths, so it yields exactly the
immediate best-effort listing (see `run_default_eq_lsCollect`). -/
def lsCollect (fs : FS) (dir : Path) : List Path :=
  Ls.add_dir_entries fs [] dir

/-- `Utf8Path::mkdir` (lib.rs lines 188-193): create only if `exists()` is
false.  Returns the result together with the attempted operations. -/
def mkdir (w : CpWorld) (p : Path) : Except Nat Unit × List CpOp :=
  if w.pathExists p = false then
    match w.createDirRes p with
    | Except.ok _ => (Except.ok (), [CpOp.createDir p])
    | Except.error e => (Except.error e, [CpOp.createDir p])
  else (Except.ok (), [])

/-- The outcome the world assigns to one attempted operation. -/
def opRes (w : CpWorld) : CpOp → Except Nat Unit
  | CpOp.mkdirAll p => w.mkdirAllRes p
  | CpOp.createDir p => w.createDirRes p
  | CpOp.copyFile s d => w.copyRes s d

/-- The `while let Some(src_path) = entries.pop_front()` loop of
`Utf8Path::cp` (lib.rs lines 145-155): a directory entry first extends the
queue with its own best-effort listing (line 150) and then `mkdir`s the
destination (line 151, `?` aborts); a non-directory entry is file-copied
(line 153, `?` aborts).  `fuel` bounds the number of dequeues. -/
def cpLoop (w : CpWorld) (self dest : Path) : Nat → List Path → Except CpErr Unit × List CpOp
  | _, [] => (Except.ok (), [])
  | 0, _ :: _ => (Except.ok (), [])
  | fuel+1, src_path :: rest =>
    let rel_path := src_path.drop self.length
    let dest_path := dest ++ rel_path
    if w.fs.isDir src_path then
      let rest1 := rest ++ lsCollect w.fs src_path
      match mkdir w dest_path with
      | (Except.ok _, ops0) =>
        let r := cpLoop w self dest fuel rest1
        (r.1, ops0 ++ r.2)
      | (Except.error e, ops0) => (Except.error (CpErr.prim e), ops0)
    else
      match w.copyRes src_path dest_path with
      | Except.ok _ =>
        let r := cpLoop w self dest fuel rest
        (r.1, CpOp.copyFile src_path dest_path :: r.2)
      | Except.error e => (Except.error (CpErr.prim e), [CpOp.copyFile src_path dest_path])

/-- `Utf8Path::cp` (lib.rs lines 134-160).  The inner `assert_dir` check is
kept even though it is guarded by `is_dir` (lib.rs line 139), exactly as in
the source. -/
def cp (w : CpWorld) (self dest : Path) (fuel : Nat) : Except CpErr Unit × List CpOp :=
  if w.pathExists self = false then (Except.error CpErr.notFound, [])
  else if w.fs.isDir self then
    if w.fs.isDir self = false then (Except.error CpErr.notDir, [])
    else
      match w.mkdirAllRes dest with
      | Except.error e => (Except.error (CpErr.prim e), [CpOp.mkdirAll dest])
      | Except.ok _ =>
        let r := cpLoop w self dest fuel (lsCollect w.fs self)
        (r.1, CpOp.mkdirAll dest :: r.2)
  else
    match w.copyRes self dest with
    | Except.ok _ => (Except.ok (), [CpOp.copyFile self dest])
    | Except.error e => (Except.error (CpErr.prim e), [CpOp.copyFile self dest])

/-! Removal (`Utf8Path::rm` and `Utf8Path::rm_matching`, lib.rs lines
167-186).  Here the filesystem must mutate, so it is concrete data: the lists
of directory paths and file paths.  The `fs_remove_file` / `fs_remove_dir_all`
primitives may fail according to oracles. -/

/-- A concrete filesystem: which paths are directories and which are files. -/
structure FSData where
  dirs : List Path
  files : List Path
deriving DecidableEq

def FSData.isDir (d : FSData) (p : Path) : Bool := decide (p ∈ d.dirs)

def FSData.isFile (d : FSData) (p : Path) : Bool := decide (p ∈ d.files)

/-- `Utf8Path::exists`: the path is a directory or a file. -/
def FSData.pathExists (d : FSData) (p : Path) : Bool :=
  decide (p ∈ d.dirs ∨ p ∈ d.files)

/-- The names of the immediate children of `p`: entries exactly one component
longer than `p` that extend it. -/
def FSData.childNames (d : FSData) (p : Path) : List String :=
  (d.dirs ++ d.files).filterMap (fun q =>
    if q.length = p.length + 1 ∧ p.isPrefixOf q then q.getLast? else none)

/-- The immediate children of `p` as full paths: what `Ls::new(p).collect()`
yields over this filesystem (see `run_toFS_eq_children`). -/
def FSData.children (d : FSData) (p : Path) : List Path :=
  (d.childNames p).map (fun n => p ++ [n])

/-- The walker-facing oracle induced by a concrete filesystem: listing a
directory succeeds with its child names, listing anything else fails. -/
def FSData.toFS (d : FSData) : FS :=
  { isDir := d.isDir
    isFile := d.isFile
    listDir := fun p =>
      if d.isDir p then Except.ok ((d.childNames p).map EntryRes.ok)
      else Except.error () }

/-- Effect of `fs::remove_dir_all`: the directory and everything below it
disappears. -/
def eraseTree (d : FSData) (p : Path) : FSData :=
  { dirs := d.dirs.filter (fun q => ! p.isPrefixOf q)
    files := d.files.filter (fun q => ! p.isPrefixOf q) }

/-- A removal primitive invoked by `rm`. -/
inductive RmOp where
  | removeFile (p : Path)
  | removeDirAll (p : Path)
deriving DecidableEq

/-- World for the removal operations: the concrete filesystem plus failure
oracles for the two removal primitives (`none` = success). -/
structure RmWorld where
  fs : FSData
  removeFileErr : Path → Option Nat
  removeDirErr : Path → Option Nat

/-- `fs_remove_file` (fs.rs lines 36-40) acting on the model world. -/
def fs_remove_file (w : RmWorld) (p : Path) : Except Nat RmWorld :=
  match w.removeFileErr p with
  | some e => Except.error e
  | none =>
    Except.ok { w with fs := { w.fs with files := w.fs.files.filter (fun q => ! (q == p)) } }

/-- `fs_remove_dir_all` (fs.rs lines 27-31) acting on the model world. -/
def fs_remove_dir_all (w : RmWorld) (p : Path) : Except Nat RmWorld :=
  match w.removeDirErr p with
  | some e => Except.error e
  | none => Except.ok { w with fs := eraseTree w.fs p }

/-- `Utf8Path::rm` (lib.rs lines 167-175): `Ok` without touching anything if
the path does not exist, recursive delete for a directory, single delete
otherwise.  Returns the result and the invoked primitives. -/
def rm (w : RmWorld) (p : Path) : Except Nat RmWorld × List RmOp :=
  if w.fs.pathExists p = false then (Except.ok w, [])
  else if w.fs.isDir p then (fs_remove_dir_all w p, [RmOp.removeDirAll p])
  else (fs_remove_file w p, [RmOp.removeFile p])

/-- The `for file in self.ls().filter(|p| predicate(p)) { file.rm()? }` loop
of `rm_matching` (lib.rs lines 179-181), iterating over the already-listed
immediate children.  The third component records every path the predicate was
applied to; an `rm` failure stops the iteration (`?`). -/
def rm_matching_go (pred : Path → Bool) :
    RmWorld → List Path → Except Nat RmWorld × List RmOp × List Path
  | w, [] => (Except.ok w, [], [])
  | w, c :: rest =>
    if pred c then
      match rm w c with
      | (Except.ok w1, ops0) =>
        let r := rm_matching_go pred w1 rest
        (r.1, ops0 ++ r.2.1, c :: r.2.2)
      | (Except.error e, ops0) => (Except.error e, ops0, [c])
    else
      let r := rm_matching_go pred w rest
      (r.1, r.2.1, c :: r.2.2)

/-- `Utf8Path::rm_matching` (lib.rs lines 177-186).  For a directory target
the source iterates `self.ls()`: the default walker, whose yield is exactly
the immediate children `FSData.children` (bridge lemma
`run_toFS_eq_children`), listed once before the first removal.  For any other
target the predicate is evaluated on the target itself. -/
def rm_matching (w : RmWorld) (t : Path) (pred : Path → Bool) :
    Except Nat RmWorld × List RmOp × List Path :=
  if w.fs.isDir t then rm_matching_go pred w (w.fs.children t)
  else if pred t then
    let r := rm w t
    (r.1, r.2, [t])
  else (Except.ok w, [], [t])

/-- Pure effect of one `rm` when no primitive fails (used to state what the
`rm_matching` loop does to the filesystem). -/
def rmPure (d : FSData) (c : Path) : FSData :=
  if d.pathExists c = false then d
  else if d.isDir c then eraseTree d c
  else { d with files := d.files.filter (fun q => ! (q == c)) }

/-- Pure effect of the whole `rm_matching` loop when no primitive fails. -/
def foldRm (pred : Path → Bool) : FSData → List Path → FSData
  | d, [] => d
  | d, c :: rest => foldRm pred (if pred c then rmPure d c else d) rest

/-! Extension parsing (`Utf8Path::extensions`, lib.rs lines 203-209).  The
`camino` calls `file_name()` and `str::split('.')` are external collaborators:
the optional file name is taken as the input, and `splitChar` models Rust's
`str::split` on a one-character pattern (which always yields at least one,
possibly empty, piece). -/

/-- Rust `str::split(c)` on a list of characters. -/
def splitChar (c : Char) : List Char → List (List Char)
  | [] => [[]]
  | x :: xs =>
    if x = c then [] :: splitChar c xs
    else
      match splitChar c xs with
      | [] => [[x]]
      | s :: rest => (x :: s) :: rest

/-- `Utf8Path::extensions` (lib.rs lines 203-209): `name.split('.').take(1)`
when there is a file name, empty otherwise. -/
def extensions (file_name : Option (List Char)) : List (List Char) :=
  match file_name with
  | some name => (splitChar '.' name).take 1
  | none => []

/-! Reachability: the entries a traversal rooted at `base` with recursion
predicate `p` can discover — the immediate children of `base`, plus the
children of any reachable directory the predicate accepts. -/

inductive Reach (fs : FS) (base : Path) (p : Path → Bool) : Path → Prop where
  | root : ∀ c, c ∈ lsKids fs base → Reach fs base p c
  | step : ∀ d c, Reach fs base p d → fs.isDir d = true →
      p (d.drop base.length) = true → c ∈ lsKids fs d → Reach fs base p c

/-! Concrete worlds used by the closed counterexample and witness theorems. -/

/-- A base directory `b` holding a subdirectory `d` (itself unreadable) and a
file `f`. -/
def fsBD : FS :=
  { isDir := fun p => p == ["b", "d"]
    isFile := fun p => p == ["b", "f"]
    listDir := fun p =>
      if p == ["b"] then Except.ok [EntryRes.ok ("d"), EntryRes.ok ("f")]
      else Except.error () }

/-- A base directory `a` holding a subdirectory `x` and a file `f`; the
relative path `x` happens to name a file when resolved on its own (as the
converted path is, against the process working directory). -/
def fsC6 : FS :=
  { isDir := fun p => p == ["a", "x"]
    isFile := fun p => p == ["a", "f"] || p == ["x"]
    listDir := fun p =>
      if p == ["a"] then Except.ok [EntryRes.ok ("x"), EntryRes.ok ("f")]
      else Except.error () }

/-- An oracle on which every listing fails (a missing or non-directory base). -/
def fsErr : FS :=
  { isDir := fun _ => false
    isFile := fun _ => false
    listDir := fun _ => Except.error () }

/-- A source directory `s` holding an unreadable subdirectory `u` and a file
`f`; every destination-side primitive succeeds. -/
def wC3 : CpWorld :=
  { fs :=
      { isDir := fun p => p == ["s"] || p == ["s", "u"]
        isFile := fun p => p == ["s", "f"]
        listDir := fun p =>
          if p == ["s"] then Except.ok [EntryRes.ok ("u"), EntryRes.ok ("f")]
          else Except.error () }
    pathExists := fun p => p == ["s"] || p == ["s", "u"] || p == ["s", "f"]
    mkdirAllRes := fun _ => Except.ok ()
    createDirRes := fun _ => Except.ok ()
    copyRes := fun _ _ => Except.ok () }

/-- A small tree under `t`: children `d1` (a directory with a file below it),
`keep` (a directory with a matching grandchild below it) and `f1` (a file);
no removal primitive ever fails. -/
def wC7 : RmWorld :=
  { fs :=
      { dirs := [["t"], ["t", "d1"], ["t", "keep"]]
        files := [["t", "f1"], ["t", "d1", "a"], ["t", "keep", "x"]] }
    removeFileErr := fun _ => none
    removeDirErr := fun _ => none }

/-- The predicate used by the `rm_matching` witness: matches the child
directory `t/d1`, the child file `t/f1`, and the grandchild `t/keep/x`. -/
def predC7 : Path → Bool := fun q =>
  q == ["t", "d1"] || q == ["t", "f1"] || q == ["t", "keep", "x"]

/-- Recompute a log's output for filter `f` (from the same converted path). -/
def refilter (fs : FS) (f : LsFilter) (log : StepLog) : StepLog :=
  { log with output := if passesFilter fs f log.converted then some log.converted else none }

/-- Recompute a log's conversion and output for `relative_paths` over a base
of length `n` and filter `f`. -/
def rerel (fs : FS) (f : LsFilter) (n : Nat) (log : StepLog) : StepLog :=
  { log with
      converted := log.popped.drop n
      output :=
        if passesFilter fs f (log.popped.drop n) then some (log.popped.drop n) else none }

/-- All operations in the trace succeeded. -/
def opsOk (w : CpWorld) (ops : List CpOp) : Prop :=
  ∀ op ∈ ops, opRes w op = Except.ok ()

/-- Well-formed outcome of the `cp` loop: on success every attempted
operation succeeded; on failure the error is a wrapped primitive error and
the trace ends with the failing operation. -/
def CpGood (w : CpWorld) (pr : Except CpErr Unit × List CpOp) : Prop :=
  (pr.1 = Except.ok () → opsOk w pr.2)
  ∧ (∀ e0, pr.1 = Except.error (CpErr.prim e0) →
      ∃ pre op, pr.2 = pre ++ [op] ∧ opsOk w pre ∧ opRes w op = Except.error e0)
  ∧ (∀ e, pr.1 = Except.error e → ∃ e0, e = CpErr.prim e0)

/-- A small concrete tree: base `r` holding directory `d` (with a file `k`
below it) and file `f`. -/
def fsTree : FS :=
  { isDir := fun p => p == ["r", "d"]
    isFile := fun p => p == ["r", "f"] || p == ["r", "d", "k"]
    listDir := fun p =>
      if p == ["r"] then Except.ok [EntryRes.ok ("d"), EntryRes.ok ("f")]
      else if p == ["r", "d"] then Except.ok [EntryRes.ok ("k")]
      else Except.error () }

/-! Basic rewriting lemmas for the walker. -/

theorem add_dir_entries_eq (fs : FS) (entries : List Path) (dir : Path) :
    Ls.add_dir_entries fs entries dir = entries ++ lsKids fs dir := by
  unfold Ls.add_dir_entries lsKids
  cases fs.listDir dir <;> simp

theorem popStep_fst (fs : FS) (ls : Ls) (p : Path) (rest : List Path) :
    (Ls.popStep fs ls p rest).1 =
      { popped := p
        recurseAsked := if fs.isDir p then some (p.drop ls.path.length) else none
        expanded := fs.isDir p && ls.recurse_if_fn (p.drop ls.path.length)
        converted := if ls.relative_paths then p.drop ls.path.length else p
        output :=
          if passesFilter fs ls.filter
              (if ls.relative_paths then p.drop ls.path.length else p) then
            some (if ls.relative_paths then p.drop ls.path.length else p)
          else none } := by
  unfold Ls.popStep
  cases h : fs.isDir p <;> simp [h]

theorem popStep_snd (fs : FS) (ls : Ls) (p : Path) (rest : List Path) :
    (Ls.popStep fs ls p rest).2 =
      { ls with entries :=
          if fs.isDir p && ls.recurse_if_fn (p.drop ls.path.length) then
            rest ++ lsKids fs p
          else rest } := by
  unfold Ls.popStep
  cases h : fs.isDir p <;> simp [h, add_dir_entries_eq]

theorem stepsAux_zero (fs : FS) (ls : Ls) : Ls.stepsAux fs 0 ls = [] := rfl

theorem stepsAux_of_nil (fs : FS) (fuel : Nat) (ls : Ls) (h : ls.entries = []) :
    Ls.stepsAux fs fuel ls = [] := by
  cases fuel with
  | zero => rfl
  | succ n => simp only [Ls.stepsAux, h]

theorem stepsAux_of_cons (fs : FS) (fuel : Nat) (ls : Ls) (p : Path) (rest : List Path)
    (h : ls.entries = p :: rest) :
    Ls.stepsAux fs (fuel + 1) ls =
      (Ls.popStep fs ls p rest).1 :: Ls.stepsAux fs fuel (Ls.popStep fs ls p rest).2 := by
  simp only [Ls.stepsAux, h]

theorem execAux_zero (fs : FS) (ls : Ls) : Ls.execAux fs 0 ls = ls := rfl

theorem execAux_of_nil (fs : FS) (fuel : Nat) (ls : Ls) (h : ls.entries = []) :
    Ls.execAux fs fuel ls = ls := by
  cases fuel with
  | zero => rfl
  | succ n => simp only [Ls.execAux, h]

theorem execAux_of_cons (fs : FS) (fuel : Nat) (ls : Ls) (p : Path) (rest : List Path)
    (h : ls.entries = p :: rest) :
    Ls.execAux fs (fuel + 1) ls = Ls.execAux fs fuel (Ls.popStep fs ls p rest).2 := by
  simp only [Ls.execAux, h]

theorem initStep_of_initialized (fs : FS) (ls : Ls) (h : ls.initialized = true) :
    Ls.initStep fs ls = ls := by
  unfold Ls.initStep
  simp [h]

theorem initStep_of_fresh (fs : FS) (ls : Ls) (h : ls.initialized = false)
    (h2 : ls.entries = []) :
    Ls.initStep fs ls = { ls with entries := lsKids fs ls.path, initialized := true } := by
  unfold Ls.initStep
  simp [h, h2, add_dir_entries_eq]

/-! List helpers (stated over `Path` components). -/

theorem drop_len_append (a b : List String) : (a ++ b).drop a.length = b := by
  induction a with
  | nil => rfl
  | cons x xs ih => simp [ih]

theorem eq_of_append_length (x y : List String) (t : List String)
    (h : y = x ++ t) (hlen : x.length = y.length) : x = y := by
  subst h
  have ht : t.length = 0 := by
    simp only [List.length_append] at hlen
    omega
  simp [List.eq_nil_of_length_eq_zero ht]

theorem ext_of_ext_concat (d p : Path) (n : String) (t : List String)
    (h : p ++ [n] = d ++ t) (hne : d ≠ p ++ [n]) : ∃ s, p = d ++ s := by
  rcases List.eq_nil_or_concat t with rfl | ⟨t0, tn, rfl⟩
  · exact absurd (by simpa using h.symm) hne
  · have h2 : p ++ [n] = (d ++ t0) ++ [tn] := by simpa [List.append_assoc] using h
    have := List.append_inj' h2 rfl
    exact ⟨t0, this.1⟩

/-! Shape of the logs produced by a run: each observation field is determined
by the dequeued path and the walker configuration, exactly as computed by the
loop body. -/

theorem stepsAux_shape (fs : FS) (fuel : Nat) :
    ∀ (ls : Ls) (log : StepLog), log ∈ Ls.stepsAux fs fuel ls →
      log.recurseAsked =
          (if fs.isDir log.popped then some (log.popped.drop ls.path.length) else none)
      ∧ log.expanded =
          (fs.isDir log.popped && ls.recurse_if_fn (log.popped.drop ls.path.length))
      ∧ log.converted =
          (if ls.relative_paths then log.popped.drop ls.path.length else log.popped)
      ∧ log.output =
          (if passesFilter fs ls.filter log.converted then some log.converted else none) := by
  induction fuel with
  | zero => intro ls log h; simp [stepsAux_zero] at h
  | succ n ih =>
    intro ls log h
    cases hent : ls.entries with
    | nil => rw [stepsAux_of_nil fs _ ls hent] at h; simp at h
    | cons p rest =>
      rw [stepsAux_of_cons fs n ls p rest hent] at h
      rcases List.mem_cons.mp h with h1 | h1
      · subst h1
        rw [popStep_fst]
        exact ⟨rfl, rfl, rfl, rfl⟩
      · exact ih (Ls.popStep fs ls p rest).2 log h1

/-! Every queued entry is dequeued, given enough fuel: appends happen only at
the back, so the first `k` dequeues are the first `k` entries of the queue. -/

theorem stepsAux_popped_prefix (fs : FS) :
    ∀ (es : List Path) (ls : Ls) (tail : List Path) (fuel : Nat),
      ls.entries = es ++ tail → es.length ≤ fuel →
      ∃ suffix, (Ls.stepsAux fs fuel ls).map (fun log => log.popped) = es ++ suffix := by
  intro es
  induction es with
  | nil => intro ls tail fuel _ _; exact ⟨_, rfl⟩
  | cons e es' ih =>
    intro ls tail fuel hent hlen
    cases fuel with
    | zero => simp at hlen
    | succ n =>
      have hc : ls.entries = e :: (es' ++ tail) := by simpa using hent
      rw [stepsAux_of_cons fs n ls e (es' ++ tail) hc]
      have hsplit : ∃ tl, (Ls.popStep fs ls e (es' ++ tail)).2.entries = es' ++ tl := by
        rw [popStep_snd]
        by_cases hb : (fs.isDir e && ls.recurse_if_fn (e.drop ls.path.length)) = true
        · exact ⟨tail ++ lsKids fs e, by simp [hb, List.append_assoc]⟩
        · exact ⟨tail, by simp [hb]⟩
      rcases hsplit with ⟨tl, htl⟩
      rcases ih (Ls.popStep fs ls e (es' ++ tail)).2 tl n htl (by simpa using hlen) with
        ⟨suf, hsuf⟩
      refine ⟨suf, ?_⟩
      simp only [List.map_cons, hsuf, popStep_fst]
      rfl

theorem stepsAux_pops_mem (fs : FS) (ls : Ls) (q : Path) (h : q ∈ ls.entries) :
    ∃ fuel, q ∈ (Ls.stepsAux fs fuel ls).map (fun log => log.popped) := by
  rcases List.append_of_mem h with ⟨s, t, hst⟩
  rcases stepsAux_popped_prefix fs (s ++ [q]) ls t (s.length + 1)
      (by simp [hst]) (by simp) with ⟨suf, hsuf⟩
  exact ⟨s.length + 1, by simp [hsuf]⟩

/-! Once a directory is dequeued with the expansion condition true, each of
its children is eventually dequeued as well. -/

theorem stepsAux_child_popped (fs : FS) :
    ∀ (fuel : Nat) (ls : Ls) (d c : Path),
      d ∈ (Ls.stepsAux fs fuel ls).map (fun log => log.popped) →
      fs.isDir d = true → ls.recurse_if_fn (d.drop ls.path.length) = true →
      c ∈ lsKids fs d →
      ∃ fuel2, c ∈ (Ls.stepsAux fs fuel2 ls).map (fun log => log.popped) := by
  intro fuel
  induction fuel with
  | zero => intro ls d c h _ _ _; simp [stepsAux_zero] at h
  | succ n ih =>
    intro ls d c h hdir hrec hc
    cases hent : ls.entries with
    | nil => rw [stepsAux_of_nil fs _ ls hent] at h; simp at h
    | cons p rest =>
      rw [stepsAux_of_cons fs n ls p rest hent] at h
      simp only [List.map_cons, List.mem_cons] at h
      rcases h with h1 | h1
      · have hdp : d = p := by rw [popStep_fst] at h1; exact h1
        subst hdp
        have hexp : (fs.isDir d && ls.recurse_if_fn (d.drop ls.path.length)) = true := by
          simp [hdir, hrec]
        have hcmem : c ∈ (Ls.popStep fs ls d rest).2.entries := by
          rw [popStep_snd]
          simp only [hexp, if_pos]
          exact List.mem_append_right _ hc
        rcases stepsAux_pops_mem fs (Ls.popStep fs ls d rest).2 c hcmem with ⟨m, hm⟩
        refine ⟨m + 1, ?_⟩
        rw [stepsAux_of_cons fs m ls d rest hent]
        simp only [List.map_cons, List.mem_cons]
        exact Or.inr hm
      · rcases ih (Ls.popStep fs ls p rest).2 d c h1 hdir hrec hc with ⟨m, hm⟩
        refine ⟨m + 1, ?_⟩
        rw [stepsAux_of_cons fs m ls p rest hent]
        simp only [List.map_cons, List.mem_cons]
        exact Or.inr hm

/-- Every reachable entry is eventually dequeued by a walker whose
configuration matches the reachability parameters. -/
theorem reach_popped (fs : FS) (base : Path) (p : Path → Bool) (q : Path)
    (hq : Reach fs base p q) :
    ∀ (ls : Ls), ls.path = base → ls.recurse_if_fn = p → ls.entries = lsKids fs base →
      ∃ fuel, q ∈ (Ls.stepsAux fs fuel ls).map (fun log => log.popped) := by
  induction hq with
  | root c hc =>
    intro ls _ _ hent
    exact stepsAux_pops_mem fs ls c (by rw [hent]; exact hc)
  | step d c _ hdir hrec hc ih =>
    intro ls hpath hfn hent
    rcases ih ls hpath hfn hent with ⟨m, hm⟩
    refine stepsAux_child_popped fs m ls d c hm hdir ?_ hc
    rw [hfn, hpath]
    exact hrec

/-! Soundness: everything dequeued (and everything ever queued) is reachable. -/

theorem lsKids_mem_form (fs : FS) (dir c : Path) (hc : c ∈ lsKids fs dir) :
    ∃ n, c = dir ++ [n] := by
  unfold lsKids at hc
  cases h : fs.listDir dir with
  | error e => rw [h] at hc; simp at hc
  | ok es =>
    rw [h] at hc
    rcases List.mem_filterMap.mp hc with ⟨e, _, he⟩
    cases e with
    | ok name => exact ⟨name, by simpa using he.symm⟩
    | err => simp at he

theorem stepsAux_sound (fs : FS) (base : Path) (p : Path → Bool) :
    ∀ (fuel : Nat) (ls : Ls), ls.path = base → ls.recurse_if_fn = p →
      (∀ q ∈ ls.entries, Reach fs base p q) →
      (∀ log ∈ Ls.stepsAux fs fuel ls, Reach fs base p log.popped)
      ∧ (∀ q ∈ (Ls.execAux fs fuel ls).entries, Reach fs base p q) := by
  intro fuel
  induction fuel with
  | zero =>
    intro ls _ _ hI
    exact ⟨by simp [stepsAux_zero], by simpa [execAux_zero] using hI⟩
  | succ n ih =>
    intro ls hpath hfn hI
    cases hent : ls.entries with
    | nil =>
      refine ⟨?_, ?_⟩
      · rw [stepsAux_of_nil fs _ ls hent]; simp
      · rw [execAux_of_nil fs _ ls hent]; exact hI
    | cons e rest =>
      have hreach_e : Reach fs base p e := hI e (by rw [hent]; simp)
      have hI' : ∀ q ∈ (Ls.popStep fs ls e rest).2.entries, Reach fs base p q := by
        intro q hq
        rw [popStep_snd] at hq
        simp only at hq
        by_cases hb : (fs.isDir e && ls.recurse_if_fn (e.drop ls.path.length)) = true
        · rw [if_pos hb] at hq
          rcases List.mem_append.mp hq with h1 | h1
          · exact hI q (by rw [hent]; exact List.mem_cons_of_mem _ h1)
          · have hb2 : fs.isDir e = true ∧ ls.recurse_if_fn (e.drop ls.path.length) = true := by
              rw [Bool.and_eq_true] at hb
              exact hb
            have hdir : fs.isDir e = true := hb2.1
            have hrec : p (e.drop base.length) = true := by
              have h3 := hb2.2
              rw [hfn, hpath] at h3
              exact h3
            exact Reach.step e q hreach_e hdir hrec h1
        · rw [if_neg hb] at hq
          exact hI q (by rw [hent]; exact List.mem_cons_of_mem _ hq)
      have hstep := ih (Ls.popStep fs ls e rest).2 hpath hfn hI'
      refine ⟨?_, ?_⟩
      · intro log hlog
        rw [stepsAux_of_cons fs n ls e rest hent] at hlog
        rcases List.mem_cons.mp hlog with h1 | h1
        · rw [h1, popStep_fst]
          exact hreach_e
        · exact hstep.1 log h1
      · rw [execAux_of_cons fs n ls e rest hent]
        exact hstep.2

/-- A reachable entry extends the base path. -/
theorem reach_ext (fs : FS) (base : Path) (p : Path → Bool) (q : Path)
    (hq : Reach fs base p q) : ∃ t, q = base ++ t := by
  induction hq with
  | root c hc =>
    rcases lsKids_mem_form fs base c hc with ⟨n, rfl⟩
    exact ⟨[n], rfl⟩
  | step d c _ _ _ hc ih =>
    rcases lsKids_mem_form fs d c hc with ⟨n, rfl⟩
    rcases ih with ⟨t, rfl⟩
    exact ⟨t ++ [n], by simp⟩

/-- Every strict intermediate ancestor of a reachable entry (strictly between
the base and the entry) is a directory the recursion predicate accepted. -/
theorem reach_ancestor (fs : FS) (base : Path) (p : Path → Bool) (q : Path)
    (hq : Reach fs base p q) :
    ∀ d, (∃ s, d = base ++ s) → d ≠ base → (∃ t, q = d ++ t) → d ≠ q →
      fs.isDir d = true ∧ p (d.drop base.length) = true := by
  induction hq with
  | root c hc =>
    intro d hdbase hdb hdq hne
    rcases lsKids_mem_form fs base c hc with ⟨n, rfl⟩
    rcases hdbase with ⟨s, hs⟩
    rcases hdq with ⟨t, ht⟩
    rcases ext_of_ext_concat d base n t ht hne with ⟨s', hs'⟩
    exfalso
    apply hdb
    have hlen : d.length = base.length := by
      have h1 : d.length = base.length + s.length := by rw [hs]; simp
      have h2 : base.length = d.length + s'.length := by rw [hs']; simp
      omega
    exact (eq_of_append_length d base s' hs' hlen).symm ▸ rfl
  | step d0 c _ hdir hrec hc ih =>
    intro d hdbase hdb hdq hne
    rcases lsKids_mem_form fs d0 c hc with ⟨n, rfl⟩
    rcases hdq with ⟨t, ht⟩
    rcases ext_of_ext_concat d d0 n t ht hne with ⟨s', hs'⟩
    by_cases hd0d : d = d0
    · subst hd0d
      exact ⟨hdir, hrec⟩
    · exact ih d hdbase hdb ⟨s', hs'⟩ hd0d

/-! The filter and the path-form setting influence only the produced
observations, never the queue evolution: a run with a different filter (or
with `relative_paths` set) performs exactly the same dequeues and expansions
and merely re-derives its outputs from the same dequeued paths. -/

theorem popStep_filter (fs : FS) (ls : Ls) (f : LsFilter) (p : Path) (rest : List Path) :
    Ls.popStep fs { ls with filter := f } p rest
      = (refilter fs f (Ls.popStep fs ls p rest).1,
         { (Ls.popStep fs ls p rest).2 with filter := f }) := by
  cases hd : fs.isDir p <;>
    simp [Ls.popStep, refilter, hd, Prod.ext_iff]

theorem popStep_rel (fs : FS) (ls : Ls) (p : Path) (rest : List Path) :
    Ls.popStep fs { ls with relative_paths := true } p rest
      = (rerel fs ls.filter ls.path.length (Ls.popStep fs ls p rest).1,
         { (Ls.popStep fs ls p rest).2 with relative_paths := true }) := by
  cases hd : fs.isDir p <;>
    simp [Ls.popStep, rerel, hd, Prod.ext_iff]

theorem stepsAux_filter (fs : FS) (filt : LsFilter) :
    ∀ (fuel : Nat) (ls1 ls2 : Ls),
      ls1.filter = filt →
      ls1.recurse_if_fn = ls2.recurse_if_fn → ls1.relative_paths = ls2.relative_paths →
      ls1.path = ls2.path → ls1.entries = ls2.entries →
      Ls.stepsAux fs fuel ls1 = (Ls.stepsAux fs fuel ls2).map (refilter fs filt) := by
  intro fuel
  induction fuel with
  | zero => intros; rfl
  | succ n ih =>
    intro ls1 ls2 h0 h1 h2 h3 h5
    obtain ⟨fn1, rel1, path1, filt1, init1, ent1⟩ := ls1
    obtain ⟨fn2, rel2, path2, filt2, init2, ent2⟩ := ls2
    simp only at h0 h1 h2 h3 h5
    subst h0; subst h1; subst h2; subst h3; subst h5
    cases ent1 with
    | nil => rfl
    | cons p rest =>
      simp only [Ls.stepsAux, List.map_cons]
      refine congrArg₂ _ ?_ ?_
      · rw [popStep_fst, popStep_fst]
        unfold refilter
        rfl
      · rw [popStep_snd, popStep_snd]
        apply ih <;> rfl

theorem stepsAux_rel (fs : FS) (filt : LsFilter) (bp : Path) :
    ∀ (fuel : Nat) (ls1 ls2 : Ls),
      ls1.relative_paths = true →
      ls1.recurse_if_fn = ls2.recurse_if_fn → ls1.path = bp → ls2.path = bp →
      ls1.filter = filt → ls2.filter = filt → ls1.entries = ls2.entries →
      Ls.stepsAux fs fuel ls1
        = (Ls.stepsAux fs fuel ls2).map (rerel fs filt bp.length) := by
  intro fuel
  induction fuel with
  | zero => intros; rfl
  | succ n ih =>
    intro ls1 ls2 hrel h1 hp1 hp2 hf1 hf2 h5
    obtain ⟨fn1, rel1, path1, filt1, init1, ent1⟩ := ls1
    obtain ⟨fn2, rel2, path2, filt2, init2, ent2⟩ := ls2
    simp only at hrel h1 hp1 hp2 hf1 hf2 h5
    subst hrel; subst h1; subst hp1; subst hp2; subst hf1; subst hf2; subst h5
    cases ent1 with
    | nil => rfl
    | cons p rest =>
      simp only [Ls.stepsAux, List.map_cons]
      refine congrArg₂ _ ?_ ?_
      · rw [popStep_fst, popStep_fst]
        unfold rerel
        rfl
      · rw [popStep_snd, popStep_snd]
        apply ih <;> rfl

theorem initStep_filter (fs : FS) (ls : Ls) (f : LsFilter) :
    Ls.initStep fs { ls with filter := f } = { Ls.initStep fs ls with filter := f } := by
  cases h : ls.initialized <;> simp [Ls.initStep, h]

theorem initStep_rel (fs : FS) (ls : Ls) :
    Ls.initStep fs { ls with relative_paths := true }
      = { Ls.initStep fs ls with relative_paths := true } := by
  cases h : ls.initialized <;> simp [Ls.initStep, h]

theorem initStep_path_eq (fs : FS) (ls : Ls) : (Ls.initStep fs ls).path = ls.path := by
  cases h : ls.initialized <;> simp [Ls.initStep, h]

theorem initStep_filter_eq (fs : FS) (ls : Ls) : (Ls.initStep fs ls).filter = ls.filter := by
  cases h : ls.initialized <;> simp [Ls.initStep, h]

theorem initStep_fn_eq (fs : FS) (ls : Ls) :
    (Ls.initStep fs ls).recurse_if_fn = ls.recurse_if_fn := by
  cases h : ls.initialized <;> simp [Ls.initStep, h]

theorem initStep_relpaths_eq (fs : FS) (ls : Ls) :
    (Ls.initStep fs ls).relative_paths = ls.relative_paths := by
  cases h : ls.initialized <;> simp [Ls.initStep, h]

theorem steps_filter (fs : FS) (fuel : Nat) (ls : Ls) (f : LsFilter) :
    Ls.steps fs fuel { ls with filter := f }
      = (Ls.steps fs fuel ls).map (refilter fs f) := by
  unfold Ls.steps
  rw [initStep_filter]
  exact stepsAux_filter fs f fuel { Ls.initStep fs ls with filter := f }
    (Ls.initStep fs ls) rfl rfl rfl rfl rfl

theorem steps_rel (fs : FS) (fuel : Nat) (ls : Ls) :
    Ls.steps fs fuel { ls with relative_paths := true }
      = (Ls.steps fs fuel ls).map (rerel fs ls.filter ls.path.length) := by
  unfold Ls.steps
  rw [initStep_rel]
  exact stepsAux_rel fs ls.filter ls.path fuel
    { Ls.initStep fs ls with relative_paths := true } (Ls.initStep fs ls)
    rfl rfl (initStep_path_eq fs ls) (initStep_path_eq fs ls)
    (initStep_filter_eq fs ls) (initStep_filter_eq fs ls) rfl

theorem filterMap_output_refilter (fs : FS) (f : LsFilter) (l : List StepLog) :
    (l.map (refilter fs f)).filterMap (fun log => log.output)
      = ((l.map (refilter fs LsFilter.all)).filterMap (fun log => log.output)).filter
          (passesFilter fs f) := by
  induction l with
  | nil => rfl
  | cons a l ih =>
    have hall : (refilter fs LsFilter.all a).output = some a.converted := rfl
    by_cases h : passesFilter fs f a.converted = true
    · have hf : (refilter fs f a).output = some a.converted := by
        simp [refilter, h]
      simp only [List.map_cons, List.filterMap_cons, hf, hall, List.filter_cons, h]
      simp only [if_true, ih]
    · have hf : (refilter fs f a).output = none := by
        simp [refilter, h]
      simp only [List.map_cons, List.filterMap_cons, hf, hall, List.filter_cons, h]
      simp only [Bool.false_eq_true, if_false, ih]

/-- Changing the filter of any walker filters the all-filter run's yield. -/
theorem run_filter_eq (fs : FS) (fuel : Nat) (ls : Ls) (f : LsFilter) :
    Ls.run fs fuel { ls with filter := f }
      = (Ls.run fs fuel { ls with filter := LsFilter.all }).filter (passesFilter fs f) := by
  unfold Ls.run
  rw [steps_filter fs fuel ls f, steps_filter fs fuel ls LsFilter.all]
  exact filterMap_output_refilter fs f (Ls.steps fs fuel ls)

/-! The default walker (`Ls::new` with no builder call) neither recurses nor
filters nor converts: it yields exactly its queue, i.e. the immediate
best-effort listing of the base. -/

theorem stepsAux_default_run (fs : FS) :
    ∀ (fuel : Nat) (ls : Ls), ls.recurse_if_fn = (fun _ => false) →
      ls.filter = LsFilter.all → ls.relative_paths = false →
      (Ls.stepsAux fs fuel ls).filterMap (fun log => log.output) = ls.entries.take fuel := by
  intro fuel
  induction fuel with
  | zero => intro ls _ _ _; simp [stepsAux_zero]
  | succ n ih =>
    intro ls hfn hfil hrel
    cases hent : ls.entries with
    | nil => rw [stepsAux_of_nil fs _ ls hent]; simp
    | cons p rest =>
      rw [stepsAux_of_cons fs n ls p rest hent]
      have hout : (Ls.popStep fs ls p rest).1.output = some p := by
        rw [popStep_fst]
        simp [hrel, hfil, passesFilter]
      have hsnd : (Ls.popStep fs ls p rest).2.entries = rest := by
        rw [popStep_snd]
        simp [hfn]
      have ihr := ih (Ls.popStep fs ls p rest).2
        (by rw [popStep_snd]; exact hfn) (by rw [popStep_snd]; exact hfil)
        (by rw [popStep_snd]; exact hrel)
      rw [hsnd] at ihr
      simp only [List.filterMap_cons, hout, ihr, List.take_succ_cons]

theorem lsCollect_eq_lsKids (fs : FS) (dir : Path) : lsCollect fs dir = lsKids fs dir := by
  unfold lsCollect
  rw [add_dir_entries_eq]
  rfl

/-- `Ls::new(dir).collect()`: the default walker yields exactly the immediate
best-effort listing. -/
theorem run_default_eq_lsCollect (fs : FS) (dir : Path) (fuel : Nat)
    (h : (lsCollect fs dir).length ≤ fuel) :
    Ls.run fs fuel (Ls.new dir) = lsCollect fs dir := by
  unfold Ls.run Ls.steps
  rw [initStep_of_fresh fs (Ls.new dir) rfl rfl]
  rw [stepsAux_default_run fs fuel _ rfl rfl rfl]
  simp only [lsCollect_eq_lsKids] at h ⊢
  exact List.take_of_length_le h

/-! Bridge between the concrete filesystem and the walker: over `FSData.toFS`
the default walker yields exactly the immediate children. -/

theorem toFS_lsKids (d : FSData) (p : Path) (h : d.isDir p = true) :
    lsKids d.toFS p = d.children p := by
  unfold lsKids FSData.toFS FSData.children
  simp only [h, if_pos]
  rw [List.filterMap_map]
  have : ((fun e => match e with
      | EntryRes.ok name => some (p ++ [name])
      | EntryRes.err => none) ∘ EntryRes.ok)
      = fun n : String => some (p ++ [n]) := by
    funext n; rfl
  rw [this]
  induction d.childNames p with
  | nil => rfl
  | cons n l ih => simp [ih]

/-- Over a concrete filesystem, `Ls::new(p).collect()` for a directory `p`
is exactly `FSData.children`. -/
theorem run_toFS_eq_children (d : FSData) (p : Path) (h : d.isDir p = true) (fuel : Nat)
    (hf : (d.children p).length ≤ fuel) :
    Ls.run d.toFS fuel (Ls.new p) = d.children p := by
  have hc : lsCollect d.toFS p = d.children p := by
    rw [lsCollect_eq_lsKids, toFS_lsKids d p h]
  rw [run_default_eq_lsCollect d.toFS p fuel (by rw [hc]; exact hf), hc]

/-! Error propagation of the `cp` loop: every operation in the trace except
possibly the last succeeded, and the result is a primitive error exactly when
the trace ends with the operation that failed. -/

theorem opsOk_nil (w : CpWorld) : opsOk w [] := by
  intro op h
  simp at h

theorem opsOk_append (w : CpWorld) (a b : List CpOp) (ha : opsOk w a) (hb : opsOk w b) :
    opsOk w (a ++ b) := by
  intro op h
  rcases List.mem_append.mp h with h1 | h1
  · exact ha op h1
  · exact hb op h1

theorem cpGood_prepend (w : CpWorld) (ops0 : List CpOp) (h0 : opsOk w ops0)
    (pr : Except CpErr Unit × List CpOp) (h : CpGood w pr) :
    CpGood w (pr.1, ops0 ++ pr.2) := by
  refine ⟨?_, ?_, ?_⟩
  · intro hok
    exact opsOk_append w ops0 pr.2 h0 (h.1 hok)
  · intro e0 he
    rcases h.2.1 e0 he with ⟨pre, op, hsplit, hpre, hop⟩
    exact ⟨ops0 ++ pre, op, by rw [hsplit, List.append_assoc],
      opsOk_append w ops0 pre h0 hpre, hop⟩
  · exact h.2.2

theorem cpLoop_good (w : CpWorld) (self dest : Path) :
    ∀ (fuel : Nat) (q : List Path), CpGood w (cpLoop w self dest fuel q) := by
  intro fuel
  induction fuel with
  | zero =>
    intro q
    cases q with
    | nil => exact ⟨fun _ => opsOk_nil w, fun e0 h => by simp [cpLoop] at h,
        fun e h => by simp [cpLoop] at h⟩
    | cons a q => exact ⟨fun _ => opsOk_nil w, fun e0 h => by simp [cpLoop] at h,
        fun e h => by simp [cpLoop] at h⟩
  | succ n ih =>
    intro q
    cases q with
    | nil => exact ⟨fun _ => opsOk_nil w, fun e0 h => by simp [cpLoop] at h,
        fun e h => by simp [cpLoop] at h⟩
    | cons sp rest =>
      simp only [cpLoop]
      by_cases hd : w.fs.isDir sp = true
      · rw [if_pos hd]
        have hgo := ih (rest ++ lsCollect w.fs sp)
        cases hm : mkdir w (dest ++ sp.drop self.length) with
        | mk mr mops =>
          cases mr with
          | ok u =>
            cases u
            have hops : opsOk w mops := by
              unfold mkdir at hm
              by_cases hex : w.pathExists (dest ++ sp.drop self.length) = false
              · rw [if_pos hex] at hm
                cases hc : w.createDirRes (dest ++ sp.drop self.length) with
                | ok v =>
                  rw [hc] at hm
                  cases hm
                  intro op hop
                  simp at hop
                  rw [hop]
                  simpa [opRes] using hc
                | error e =>
                  rw [hc] at hm
                  cases hm
              · rw [if_neg hex] at hm
                cases hm
                exact opsOk_nil w
            exact cpGood_prepend w mops hops _ hgo
          | error e =>
            have hcd : w.createDirRes (dest ++ sp.drop self.length) = Except.error e
                ∧ mops = [CpOp.createDir (dest ++ sp.drop self.length)] := by
              unfold mkdir at hm
              by_cases hex : w.pathExists (dest ++ sp.drop self.length) = false
              · rw [if_pos hex] at hm
                cases hc : w.createDirRes (dest ++ sp.drop self.length) with
                | ok v => rw [hc] at hm; cases hm
                | error e2 => rw [hc] at hm; cases hm; exact ⟨rfl, rfl⟩
              · rw [if_neg hex] at hm
                cases hm
            refine ⟨fun hok => by simp at hok, ?_, fun e2 h2 => ⟨e, by
              simp only at h2
              cases h2
              rfl⟩⟩
            intro e0 he
            simp only at he
            cases he
            exact ⟨[], CpOp.createDir (dest ++ sp.drop self.length),
              by rw [hcd.2]; rfl, opsOk_nil w, by simpa [opRes] using hcd.1⟩
      · rw [if_neg hd]
        cases hc : w.copyRes sp (dest ++ sp.drop self.length) with
        | ok u =>
          cases u
          have hone : opsOk w [CpOp.copyFile sp (dest ++ sp.drop self.length)] := by
            intro op hop
            simp at hop
            rw [hop]
            simpa [opRes] using hc
          exact cpGood_prepend w [CpOp.copyFile sp (dest ++ sp.drop self.length)] hone _
            (ih rest)
        | error e =>
          refine ⟨fun hok => by simp at hok, ?_, fun e2 h2 => ⟨e, by
            simp only at h2
            cases h2
            rfl⟩⟩
          intro e0 he
          simp only at he
          cases he
          exact ⟨[], CpOp.copyFile sp (dest ++ sp.drop self.length), rfl, opsOk_nil w,
            by simpa [opRes] using hc⟩

/-! Removal lemmas: the pure effect of one `rm` and of the whole
`rm_matching` loop on the concrete filesystem. -/

theorem isPrefixOf_iff (a : List String) :
    ∀ (b : List String), a.isPrefixOf b = true ↔ ∃ t, b = a ++ t := by
  induction a with
  | nil => intro b; simp [List.isPrefixOf]
  | cons x xs ih =>
    intro b
    cases b with
    | nil => simp [List.isPrefixOf]
    | cons y ys =>
      simp only [List.isPrefixOf, Bool.and_eq_true, beq_iff_eq, ih, List.cons_append,
        List.cons.injEq]
      constructor
      · rintro ⟨rfl, t, rfl⟩
        exact ⟨t, rfl, rfl⟩
      · rintro ⟨t, rfl, rfl⟩
        exact ⟨rfl, t, rfl⟩

theorem isDir_iff (d : FSData) (p : Path) : d.isDir p = true ↔ p ∈ d.dirs := by
  unfold FSData.isDir
  exact decide_eq_true_iff

theorem isFile_iff (d : FSData) (p : Path) : d.isFile p = true ↔ p ∈ d.files := by
  unfold FSData.isFile
  exact decide_eq_true_iff

theorem pathExists_iff (d : FSData) (p : Path) :
    d.pathExists p = true ↔ p ∈ d.dirs ∨ p ∈ d.files := by
  unfold FSData.pathExists
  exact decide_eq_true_iff

theorem rmPure_files_shrink (d : FSData) (c q : Path) :
    q ∈ (rmPure d c).files → q ∈ d.files := by
  unfold rmPure
  by_cases h1 : d.pathExists c = false
  · rw [if_pos h1]; exact id
  · rw [if_neg h1]
    by_cases h2 : d.isDir c = true
    · rw [if_pos h2]
      intro hq
      exact (List.mem_filter.mp hq).1
    · rw [if_neg h2]
      intro hq
      exact (List.mem_filter.mp hq).1

theorem rmPure_dirs_shrink (d : FSData) (c q : Path) :
    q ∈ (rmPure d c).dirs → q ∈ d.dirs := by
  unfold rmPure
  by_cases h1 : d.pathExists c = false
  · rw [if_pos h1]; exact id
  · rw [if_neg h1]
    by_cases h2 : d.isDir c = true
    · rw [if_pos h2]
      intro hq
      exact (List.mem_filter.mp hq).1
    · rw [if_neg h2]
      exact id

theorem rmPure_keep (d : FSData) (c q : Path) (hq : ∀ u, q ≠ c ++ u) :
    (q ∈ (rmPure d c).files ↔ q ∈ d.files) ∧ (q ∈ (rmPure d c).dirs ↔ q ∈ d.dirs) := by
  have hnp : c.isPrefixOf q = false := by
    cases h : c.isPrefixOf q
    · rfl
    · rcases (isPrefixOf_iff c q).mp h with ⟨t, ht⟩
      exact absurd ht (hq t)
  have hne : (q == c) = false := by
    cases h : q == c
    · rfl
    · have := eq_of_beq h
      exact absurd this (by simpa using hq [])
  unfold rmPure
  by_cases h1 : d.pathExists c = false
  · rw [if_pos h1]; exact ⟨Iff.rfl, Iff.rfl⟩
  · rw [if_neg h1]
    by_cases h2 : d.isDir c = true
    · rw [if_pos h2]
      constructor
      · constructor
        · intro h; exact (List.mem_filter.mp h).1
        · intro h; exact List.mem_filter.mpr ⟨h, by simp [hnp]⟩
      · constructor
        · intro h; exact (List.mem_filter.mp h).1
        · intro h; exact List.mem_filter.mpr ⟨h, by simp [hnp]⟩
    · rw [if_neg h2]
      refine ⟨?_, Iff.rfl⟩
      constructor
      · intro h; exact (List.mem_filter.mp h).1
      · intro h; exact List.mem_filter.mpr ⟨h, by simp [hne]⟩

theorem rmPure_kill (d : FSData) (c : Path) :
    c ∉ (rmPure d c).files ∧ c ∉ (rmPure d c).dirs := by
  unfold rmPure
  by_cases h1 : d.pathExists c = false
  · rw [if_pos h1]
    have : ¬ (c ∈ d.dirs ∨ c ∈ d.files) := by
      intro h
      have := (pathExists_iff d c).mpr h
      rw [h1] at this
      cases this
    exact ⟨fun h => this (Or.inr h), fun h => this (Or.inl h)⟩
  · rw [if_neg h1]
    by_cases h2 : d.isDir c = true
    · rw [if_pos h2]
      have hrefl : c.isPrefixOf c = true := (isPrefixOf_iff c c).mpr ⟨[], by simp⟩
      constructor
      · intro h
        have h3 := (List.mem_filter.mp h).2
        rw [hrefl] at h3
        simp at h3
      · intro h
        have h3 := (List.mem_filter.mp h).2
        rw [hrefl] at h3
        simp at h3
    · rw [if_neg h2]
      constructor
      · intro h
        have := (List.mem_filter.mp h).2
        simp at this
      · intro h
        exact h2 ((isDir_iff d c).mpr h)

theorem rmPure_killTree (d : FSData) (c : Path) (hc : c ∈ d.dirs) (q : Path)
    (hq : ∃ u, q = c ++ u) :
    q ∉ (rmPure d c).files ∧ q ∉ (rmPure d c).dirs := by
  have h1 : d.pathExists c = true := (pathExists_iff d c).mpr (Or.inl hc)
  have h2 : d.isDir c = true := (isDir_iff d c).mpr hc
  have hpf : c.isPrefixOf q = true := by
    rcases hq with ⟨u, rfl⟩
    exact (isPrefixOf_iff c (c ++ u)).mpr ⟨u, rfl⟩
  unfold rmPure
  rw [if_neg (by rw [h1]; intro h; cases h), if_pos h2]
  constructor
  · intro h
    have := (List.mem_filter.mp h).2
    simp [hpf] at this
  · intro h
    have := (List.mem_filter.mp h).2
    simp [hpf] at this

theorem foldRm_files_shrink (pred : Path → Bool) :
    ∀ (cs : List Path) (d : FSData) (q : Path),
      q ∈ (foldRm pred d cs).files → q ∈ d.files := by
  intro cs
  induction cs with
  | nil => intro d q h; exact h
  | cons c rest ih =>
    intro d q h
    have h2 := ih (if pred c then rmPure d c else d) q h
    by_cases hp : pred c = true
    · rw [if_pos hp] at h2
      exact rmPure_files_shrink d c q h2
    · rw [if_neg hp] at h2
      exact h2

theorem foldRm_dirs_shrink (pred : Path → Bool) :
    ∀ (cs : List Path) (d : FSData) (q : Path),
      q ∈ (foldRm pred d cs).dirs → q ∈ d.dirs := by
  intro cs
  induction cs with
  | nil => intro d q h; exact h
  | cons c rest ih =>
    intro d q h
    have h2 := ih (if pred c then rmPure d c else d) q h
    by_cases hp : pred c = true
    · rw [if_pos hp] at h2
      exact rmPure_dirs_shrink d c q h2
    · rw [if_neg hp] at h2
      exact h2

theorem foldRm_keep (pred : Path → Bool) :
    ∀ (cs : List Path) (d : FSData) (q : Path),
      (∀ c ∈ cs, pred c = true → ∀ u, q ≠ c ++ u) →
      (q ∈ (foldRm pred d cs).files ↔ q ∈ d.files)
      ∧ (q ∈ (foldRm pred d cs).dirs ↔ q ∈ d.dirs) := by
  intro cs
  induction cs with
  | nil => intro d q _; exact ⟨Iff.rfl, Iff.rfl⟩
  | cons c rest ih =>
    intro d q hg
    have hrest : ∀ c0 ∈ rest, pred c0 = true → ∀ u, q ≠ c0 ++ u := by
      intro c0 hc0 hp u
      exact hg c0 (List.mem_cons_of_mem _ hc0) hp u
    by_cases hp : pred c = true
    · have hkeep := rmPure_keep d c q (hg c (List.mem_cons_self c rest) hp)
      have hr := ih (rmPure d c) q hrest
      unfold foldRm
      rw [if_pos hp]
      exact ⟨hr.1.trans hkeep.1, hr.2.trans hkeep.2⟩
    · have hr := ih d q hrest
      unfold foldRm
      rw [if_neg hp]
      exact hr

theorem foldRm_kill (pred : Path → Bool) :
    ∀ (cs : List Path) (d : FSData) (c : Path), c ∈ cs → pred c = true →
      c ∉ (foldRm pred d cs).files ∧ c ∉ (foldRm pred d cs).dirs := by
  intro cs
  induction cs with
  | nil => intro d c h; simp at h
  | cons c0 rest ih =>
    intro d c hc hp
    rcases List.mem_cons.mp hc with rfl | hmem
    · have hk := rmPure_kill d c
      unfold foldRm
      rw [if_pos hp]
      exact ⟨fun h => hk.1 (foldRm_files_shrink pred rest _ c h),
        fun h => hk.2 (foldRm_dirs_shrink pred rest _ c h)⟩
    · by_cases hp0 : pred c0 = true
      · unfold foldRm
        rw [if_pos hp0]
        exact ih (rmPure d c0) c hmem hp
      · unfold foldRm
        rw [if_neg hp0]
        exact ih d c hmem hp

theorem foldRm_killTree (pred : Path → Bool) :
    ∀ (cs : List Path) (d : FSData) (c : Path),
      (∀ x ∈ cs, x.length = c.length) → c ∈ cs → pred c = true → c ∈ d.dirs →
      ∀ q, (∃ u, q = c ++ u) →
        q ∉ (foldRm pred d cs).files ∧ q ∉ (foldRm pred d cs).dirs := by
  intro cs
  induction cs with
  | nil => intro d c _ h; simp at h
  | cons c0 rest ih =>
    intro d c hlen hc hp hdir q hq
    have hlrest : ∀ x ∈ rest, x.length = c.length := by
      intro x hx
      exact hlen x (List.mem_cons_of_mem _ hx)
    rcases List.mem_cons.mp hc with rfl | hmem
    · have hk := rmPure_killTree d c hdir q hq
      unfold foldRm
      rw [if_pos hp]
      exact ⟨fun h => hk.1 (foldRm_files_shrink pred rest _ q h),
        fun h => hk.2 (foldRm_dirs_shrink pred rest _ q h)⟩
    · by_cases hp0 : pred c0 = true
      · unfold foldRm
        rw [if_pos hp0]
        by_cases hcd : c ∈ (rmPure d c0).dirs
        · exact ih (rmPure d c0) c hlrest hmem hp hcd q hq
        · -- c was removed by the head step: only possible when c0 = c
          have hc0c : c0 = c := by
            unfold rmPure at hcd
            by_cases h1 : d.pathExists c0 = false
            · rw [if_pos h1] at hcd
              exact absurd hdir hcd
            · rw [if_neg h1] at hcd
              by_cases h2 : d.isDir c0 = true
              · rw [if_pos h2] at hcd
                by_cases hpf : c0.isPrefixOf c = true
                · rcases (isPrefixOf_iff c0 c).mp hpf with ⟨u, hu⟩
                  have : c0.length = c.length := hlen c0 (List.mem_cons_self c0 rest)
                  exact (eq_of_append_length c0 c u hu this)
                · exfalso
                  apply hcd
                  refine List.mem_filter.mpr ⟨hdir, ?_⟩
                  have hbf : c0.isPrefixOf c = false := by
                    cases hb : c0.isPrefixOf c
                    · rfl
                    · exact absurd hb hpf
                  simp [hbf]
              · rw [if_neg h2] at hcd
                exact absurd hdir hcd
          subst hc0c
          have hk := rmPure_killTree d c0 hdir q hq
          exact ⟨fun h => hk.1 (foldRm_files_shrink pred rest _ q h),
            fun h => hk.2 (foldRm_dirs_shrink pred rest _ q h)⟩
      · unfold foldRm
        rw [if_neg hp0]
        exact ih d c hlrest hmem hp hdir q hq

/-- With no primitive failures, one `rm` succeeds and its pure effect is
`rmPure`. -/
theorem rm_no_fail (w : RmWorld) (hf : ∀ q, w.removeFileErr q = none)
    (hd : ∀ q, w.removeDirErr q = none) (c : Path) :
    ∃ ops, rm w c = (Except.ok { w with fs := rmPure w.fs c }, ops) := by
  unfold rm rmPure
  by_cases h1 : w.fs.pathExists c = false
  · rw [if_pos h1, if_pos h1]
    exact ⟨[], rfl⟩
  · rw [if_neg h1, if_neg h1]
    by_cases h2 : w.fs.isDir c = true
    · rw [if_pos h2, if_pos h2]
      refine ⟨[RmOp.removeDirAll c], ?_⟩
      unfold fs_remove_dir_all
      rw [hd c]
    · rw [if_neg h2, if_neg h2]
      refine ⟨[RmOp.removeFile c], ?_⟩
      unfold fs_remove_file
      rw [hf c]

theorem foldRm_cons (pred : Path → Bool) (d : FSData) (c : Path) (rest : List Path) :
    foldRm pred d (c :: rest) = foldRm pred (if pred c then rmPure d c else d) rest := rfl

/-- With no primitive failures, the `rm_matching` loop succeeds, applies
`foldRm`, and evaluates the predicate on exactly the listed children in
order. -/
theorem rm_matching_go_no_fail (pred : Path → Bool) :
    ∀ (cs : List Path) (w : RmWorld),
      (∀ q, w.removeFileErr q = none) → (∀ q, w.removeDirErr q = none) →
      (rm_matching_go pred w cs).1 = Except.ok { w with fs := foldRm pred w.fs cs }
      ∧ (rm_matching_go pred w cs).2.2 = cs := by
  intro cs
  induction cs with
  | nil => intro w hf hd; exact ⟨rfl, rfl⟩
  | cons c rest ih =>
    intro w hf hd
    by_cases hp : pred c = true
    · rcases rm_no_fail w hf hd c with ⟨ops, hrm⟩
      have ihr := ih { w with fs := rmPure w.fs c } hf hd
      constructor
      · show (rm_matching_go pred w (c :: rest)).1 = _
        unfold rm_matching_go
        rw [if_pos hp, hrm]
        simp only
        rw [ihr.1, foldRm_cons, if_pos hp]
      · show (rm_matching_go pred w (c :: rest)).2.2 = _
        unfold rm_matching_go
        rw [if_pos hp, hrm]
        simp only
        rw [ihr.2]
    · have ihr := ih w hf hd
      constructor
      · show (rm_matching_go pred w (c :: rest)).1 = _
        unfold rm_matching_go
        rw [if_neg hp]
        simp only
        rw [ihr.1, foldRm_cons, if_neg hp]
      · show (rm_matching_go pred w (c :: rest)).2.2 = _
        unfold rm_matching_go
        rw [if_neg hp]
        simp only
        rw [ihr.2]

/-! Lemmas about `splitChar`. -/

theorem splitChar_head (c : Char) :
    ∀ (xs : List Char),
      ∃ rest, splitChar c xs = xs.takeWhile (fun ch => ch != c) :: rest := by
  intro xs
  induction xs with
  | nil => exact ⟨[], rfl⟩
  | cons x xs ih =>
    by_cases h : x = c
    · subst h
      refine ⟨splitChar x xs, ?_⟩
      have ht : List.takeWhile (fun ch => ch != x) (x :: xs) = [] := by
        simp [List.takeWhile_cons]
      rw [ht, splitChar, if_pos rfl]
    · rcases ih with ⟨rest, hrest⟩
      refine ⟨rest, ?_⟩
      unfold splitChar
      rw [if_neg h, hrest]
      have hx : (x != c) = true := by simp [bne, h]
      simp [List.takeWhile_cons, hx]

/-! Remaining shared helpers. -/

theorem splitChar_take_one (c : Char) (xs : List Char) :
    (splitChar c xs).take 1 = [xs.takeWhile (fun ch => ch != c)] := by
  rcases splitChar_head c xs with ⟨rest, hr⟩
  rw [hr]
  rfl

theorem filterMap_congr_some {α β : Type} (f : α → Option β) (g : α → β) (l : List α)
    (h : ∀ x ∈ l, f x = some (g x)) : l.filterMap f = l.map g := by
  induction l with
  | nil => rfl
  | cons a l ih =>
    rw [List.map_cons, List.filterMap_cons, h a (List.mem_cons_self a l)]
    rw [ih (fun x hx => h x (List.mem_cons_of_mem a hx))]

theorem mem_run_iff (fs : FS) (fuel : Nat) (ls : Ls) (q : Path) :
    q ∈ Ls.run fs fuel ls ↔ ∃ log ∈ Ls.steps fs fuel ls, log.output = some q := by
  unfold Ls.run
  exact List.mem_filterMap

theorem children_length (d : FSData) (t : Path) :
    ∀ x ∈ d.children t, x.length = t.length + 1 := by
  intro x hx
  rcases List.mem_map.mp hx with ⟨n, _, rfl⟩
  simp

/-! C9. -/

/-- Claim C9: removing a path that does not exist via `rm` succeeds
(returns `Ok`), invokes no remove-file or remove-tree primitive, and leaves
the filesystem state unchanged. -/
theorem c9_rm_missing_noop (w : RmWorld) (p : Path)
    (h : w.fs.pathExists p = false) :
    rm w p = (Except.ok w, []) := by
  unfold rm
  rw [if_pos h]

theorem c9_rm_missing_noop_witness :
    wC7.fs.pathExists ["nope"] = false ∧ rm wC7 ["nope"] = (Except.ok wC7, []) :=
  ⟨rfl, c9_rm_missing_noop wC7 ["nope"] rfl⟩

/-! C10. -/

/-- Claim C10: for a file name containing at least one dot, `extensions`
yields exactly one item — the portion of the name before the first dot (so
the segments after any dot are never yielded) — and for a path with no file
name it yields nothing. -/
theorem c10_extensions_stem (name : List Char) (h : '.' ∈ name) :
    extensions (some name) = [name.takeWhile (fun ch => ch != '.')]
    ∧ (extensions (some name)).length = 1
    ∧ extensions none = [] := by
  have h1 : extensions (some name) = [name.takeWhile (fun ch => ch != '.')] :=
    splitChar_take_one '.' name
  exact ⟨h1, by rw [h1]; rfl, rfl⟩

theorem c10_extensions_stem_witness :
    ('.' ∈ "file.tar.gz".toList)
    ∧ (extensions (some ("file.tar.gz".toList))
        = [("file.tar.gz".toList).takeWhile (fun ch => ch != '.')]
      ∧ (extensions (some ("file.tar.gz".toList))).length = 1
      ∧ extensions none = []) :=
  ⟨by decide, c10_extensions_stem ("file.tar.gz".toList) (by decide)⟩

/-! C8. -/

/-- Claim C8: the best-effort walker never propagates a listing error — a
failed listing contributes no children (`add_dir_entries` leaves the queue
unchanged), and a base whose listing fails (a missing or non-directory
BasePath) produces an empty best-effort sequence, while the fallible variant
returns a terminal error on its first pull on the same base. -/
theorem c8_best_effort_silent (fs : FS) (base : Path)
    (h : fs.listDir base = Except.error ()) :
    (∀ entries, Ls.add_dir_entries fs entries base = entries)
    ∧ (∀ (ls : Ls) (fuel : Nat), ls.path = base → ls.initialized = false →
        ls.entries = [] → Ls.run fs fuel ls = [])
    ∧ (∀ (it : TryLsIter), it.ls.path = base → it.initialized = false →
        (TryLsIter.next fs it).1 = some (Except.error ())) := by
  have hkids : lsKids fs base = [] := by
    unfold lsKids
    rw [h]
  refine ⟨?_, ?_, ?_⟩
  · intro entries
    unfold Ls.add_dir_entries
    rw [h]
  · intro ls fuel hpath hinit hent
    unfold Ls.run Ls.steps
    rw [initStep_of_fresh fs ls hinit hent]
    rw [stepsAux_of_nil fs fuel _ (by simp only; rw [hpath, hkids])]
    rfl
  · intro it hpath hinit
    have h1 : TryLsIter.add_dir_entries fs it.entries it.ls.path
        = (it.entries, Except.error ()) := by
      unfold TryLsIter.add_dir_entries
      rw [hpath, h]
    unfold TryLsIter.next TryLsIter.try_next_unfiltered
    rw [hinit, h1]
    simp

theorem c8_best_effort_silent_witness :
    fsErr.listDir ["nope"] = Except.error ()
    ∧ Ls.run fsErr 5 (Ls.new ["nope"]) = []
    ∧ (TryLsIter.next fsErr ((Ls.new ["nope"]).try_iter)).1 = some (Except.error ()) :=
  ⟨rfl,
   (c8_best_effort_silent fsErr ["nope"] rfl).2.1 (Ls.new ["nope"]) 5 rfl rfl rfl,
   (c8_best_effort_silent fsErr ["nope"] rfl).2.2 ((Ls.new ["nope"]).try_iter) rfl rfl⟩

/-! C2. -/

/-- Claim C2 (evaluation at the failing input): over a base `b` holding
subdirectory `d` and file `f`, the fallible walker with the `files()` filter
returns `None` on its very first pull — ending the sequence at the
filtered-out directory `d` while `f` is still queued — whereas the
best-effort walker with the same filter skips `d` and yields `f`. -/
theorem c2_try_filter_ends_early :
    (TryLsIter.next fsBD ((Ls.new ["b"]).files.try_iter)).1 = none
    ∧ (TryLsIter.next fsBD ((Ls.new ["b"]).files.try_iter)).2.entries = [["b", "f"]]
    ∧ Ls.run fsBD 2 ((Ls.new ["b"]).files) = [["b", "f"]] :=
  ⟨rfl, rfl, rfl⟩

/-! C1. -/

/-- Claim C1 (counterexample): after the fallible walker yields an error (the
expansion of `b/d` fails), the next pull does NOT return end-of-sequence: it
yields `Ok(b/f)` from the remaining queue. -/
theorem c1_counterexample_not_fused :
    (TryLsIter.next fsBD ((Ls.new ["b"]).recurse.try_iter)).1 = some (Except.error ())
    ∧ (TryLsIter.next fsBD
        (TryLsIter.next fsBD ((Ls.new ["b"]).recurse.try_iter)).2).1
        = some (Except.ok ["b", "f"]) :=
  ⟨rfl, rfl⟩

/-- Claim C1 (amended): a failing pull of the fallible walker yields exactly
one error outcome, but the iterator is not fused.  If initialization failed,
`initialized` stays false and the next pull attempts the base listing again
(yielding the error again while it persists); if the expansion of a dequeued
directory failed, the traversal continues from the remaining queue on the
next pull. -/
theorem c1_error_not_fused (fs : FS) :
    (∀ (it : TryLsIter), it.initialized = false →
      fs.listDir it.ls.path = Except.error () →
      (TryLsIter.next fs it).1 = some (Except.error ())
      ∧ (TryLsIter.next fs it).2.initialized = false
      ∧ (TryLsIter.next fs it).2.entries = it.entries
      ∧ (TryLsIter.next fs (TryLsIter.next fs it).2).1 = some (Except.error ()))
    ∧ (∀ (it : TryLsIter) (d : Path) (rest : List Path),
      it.initialized = true → it.entries = d :: rest →
      fs.isDir d = true → it.ls.recurse_if_fn (d.drop it.ls.path.length) = true →
      fs.listDir d = Except.error () →
      (TryLsIter.next fs it).1 = some (Except.error ())
      ∧ (TryLsIter.next fs it).2.entries = rest
      ∧ (TryLsIter.next fs it).2.initialized = true) := by
  constructor
  · intro it hinit hbase
    have h1 : TryLsIter.add_dir_entries fs it.entries it.ls.path
        = (it.entries, Except.error ()) := by
      unfold TryLsIter.add_dir_entries
      rw [hbase]
    have hnext : TryLsIter.next fs it
        = (some (Except.error ()), { it with entries := it.entries }) := by
      unfold TryLsIter.next TryLsIter.try_next_unfiltered
      rw [hinit, h1]
      simp
    have heta : ({ it with entries := it.entries } : TryLsIter) = it := rfl
    rw [hnext, heta]
    exact ⟨rfl, hinit, rfl, by rw [hnext]⟩
  · intro it d rest hinit hent hdir hrec hlist
    have hb : (fs.isDir d && it.ls.recurse_if_fn (d.drop it.ls.path.length)) = true := by
      rw [hdir, hrec]
      rfl
    have hadd : TryLsIter.add_dir_entries fs rest d = (rest, Except.error ()) := by
      unfold TryLsIter.add_dir_entries
      rw [hlist]
    have hnext : TryLsIter.next fs it
        = (some (Except.error ()), { it with entries := rest }) := by
      unfold TryLsIter.next TryLsIter.try_next_unfiltered TryLsIter.popBody
      rw [hinit, hent]
      simp only [if_pos hb, hadd]
      simp
    rw [hnext]
    exact ⟨rfl, rfl, hinit⟩

theorem c1_error_not_fused_witness :
    (((Ls.new ["x"]).try_iter).initialized = false
      ∧ fsErr.listDir ((Ls.new ["x"]).try_iter).ls.path = Except.error ())
    ∧ (TryLsIter.next fsErr ((Ls.new ["x"]).try_iter)).1 = some (Except.error ())
    ∧ (TryLsIter.next fsErr
        (TryLsIter.next fsErr ((Ls.new ["x"]).try_iter)).2).1 = some (Except.error ()) :=
  ⟨⟨rfl, rfl⟩,
   ((c1_error_not_fused fsErr).1 ((Ls.new ["x"]).try_iter) rfl rfl).1,
   ((c1_error_not_fused fsErr).1 ((Ls.new ["x"]).try_iter) rfl rfl).2.2.2⟩

/-! C6. -/

/-- Claim C6 (counterexample to the positional part): with the `files()`
filter, the filter is evaluated on the already-converted path, so the
relative walker and the otherwise identically configured absolute walker can
yield different entries at the same position: over `fsC6` the relative
walker's first yield is `x` (the converted relative path `x` happens to name
a file), joining gives `a/x`, while the absolute walker's first yield is
`a/f`. -/
theorem c6_filtered_positions_differ :
    Ls.run fsC6 2 ((Ls.new ["a"]).files.relative_paths') = [["x"]]
    ∧ Ls.run fsC6 2 ((Ls.new ["a"]).files) = [["a", "f"]]
    ∧ (["a"] ++ ["x"] : Path) ≠ ["a", "f"] :=
  ⟨rfl, rfl, by decide⟩

/-- Claim C6 (amended): joining BasePath with any path yielded under
`relative_paths()` reproduces exactly the absolute path of the dequeued
entry that produced it (any filter); and with the `All` filter the relative
run is position-by-position the base-stripped absolute run (whose entries all
extend the base).  With `FilesOnly`/`DirsOnly` the positional correspondence
with the absolute walker can fail (see `c6_filtered_positions_differ`)
because the filter tests the converted path. -/
theorem c6_relative_roundtrip (fs : FS) (base : Path) (p : Path → Bool) :
    (∀ fuel : Nat,
      Ls.run fs fuel (((Ls.new base).recurse_if p).relative_paths')
        = (Ls.run fs fuel ((Ls.new base).recurse_if p)).map
            (fun q => q.drop base.length)
      ∧ ∀ q ∈ Ls.run fs fuel ((Ls.new base).recurse_if p), ∃ t, q = base ++ t)
    ∧ (∀ (ls : Ls), ls.path = base → ls.initialized = false → ls.entries = [] →
        ∀ (fuel : Nat) (log : StepLog) (q : Path),
          log ∈ Ls.steps fs fuel { ls with relative_paths := true } →
          log.output = some q → base ++ q = log.popped) := by
  constructor
  · intro fuel
    have hsound := stepsAux_sound fs base p fuel
      (Ls.initStep fs ((Ls.new base).recurse_if p))
      (by rw [initStep_path_eq]; rfl) (by rw [initStep_fn_eq]; rfl)
      (by
        rw [initStep_of_fresh fs _ rfl rfl]
        intro q hq
        exact Reach.root q hq)
    have habs : ∀ log ∈ Ls.steps fs fuel ((Ls.new base).recurse_if p),
        log.output = some log.popped := by
      intro log hlog
      have hs := stepsAux_shape fs fuel (Ls.initStep fs ((Ls.new base).recurse_if p)) log hlog
      have hcv : log.converted = log.popped := by
        have h3 := hs.2.2.1
        rw [initStep_relpaths_eq] at h3
        simpa using h3
      have h4 := hs.2.2.2
      rw [initStep_filter_eq, hcv] at h4
      simpa [passesFilter] using h4
    have hrunabs : Ls.run fs fuel ((Ls.new base).recurse_if p)
        = (Ls.steps fs fuel ((Ls.new base).recurse_if p)).map (fun log => log.popped) := by
      unfold Ls.run
      exact filterMap_congr_some _ _ _ habs
    constructor
    · have hrel : Ls.run fs fuel (((Ls.new base).recurse_if p).relative_paths')
          = ((Ls.steps fs fuel ((Ls.new base).recurse_if p)).map
              (rerel fs LsFilter.all base.length)).filterMap (fun log => log.output) := by
        unfold Ls.run
        rw [show ((Ls.new base).recurse_if p).relative_paths'
              = { (Ls.new base).recurse_if p with relative_paths := true } from rfl]
        rw [steps_rel fs fuel ((Ls.new base).recurse_if p)]
        rfl
      have hcv : ((Ls.steps fs fuel ((Ls.new base).recurse_if p)).map
            (rerel fs LsFilter.all base.length)).filterMap (fun log => log.output)
          = ((Ls.steps fs fuel ((Ls.new base).recurse_if p)).map
              (rerel fs LsFilter.all base.length)).map (fun log => log.converted) :=
        filterMap_congr_some (fun log => log.output) (fun log => log.converted)
          ((Ls.steps fs fuel ((Ls.new base).recurse_if p)).map
            (rerel fs LsFilter.all base.length))
          (by
            intro x hx
            rcases List.mem_map.mp hx with ⟨log, _, rfl⟩
            rfl)
      rw [hrel, hcv, hrunabs, List.map_map, List.map_map]
      rfl
    · intro q hq
      rw [hrunabs] at hq
      rcases List.mem_map.mp hq with ⟨log, hlog, rfl⟩
      exact reach_ext fs base p log.popped (hsound.1 log hlog)
  · intro ls hpath hinit hent fuel log q hlog hout
    have hs := stepsAux_shape fs fuel (Ls.initStep fs { ls with relative_paths := true })
      log hlog
    have hcv : log.converted = log.popped.drop base.length := by
      have h3 := hs.2.2.1
      rw [initStep_relpaths_eq, initStep_path_eq] at h3
      simp at h3
      rw [hpath] at h3
      exact h3
    have hq : q = log.popped.drop base.length := by
      have h4 := hs.2.2.2
      rw [hout] at h4
      by_cases hpass : passesFilter fs (Ls.initStep fs
          { ls with relative_paths := true }).filter log.converted = true
      · rw [if_pos hpass] at h4
        rw [Option.some.inj h4, hcv]
      · rw [if_neg hpass] at h4
        cases h4
    have hsound := stepsAux_sound fs base (ls.recurse_if_fn) fuel
      (Ls.initStep fs { ls with relative_paths := true })
      (by rw [initStep_path_eq]; simp only; rw [hpath])
      (by rw [initStep_fn_eq])
      (by
        rw [initStep_of_fresh fs _ (by simp only; rw [hinit]) (by simp only; rw [hent])]
        intro x hx
        simp only at hx
        rw [hpath] at hx
        exact Reach.root x hx)
    rcases reach_ext fs base ls.recurse_if_fn log.popped (hsound.1 log hlog) with ⟨t, ht⟩
    rw [hq, ht, drop_len_append]

theorem c6_relative_roundtrip_witness :
    (((Ls.new ["a"]).files).path = ["a"]
      ∧ ((Ls.new ["a"]).files).initialized = false
      ∧ ((Ls.new ["a"]).files).entries = [])
    ∧ ({ popped := ["a", "x"], recurseAsked := some [("x" : String)], expanded := false,
         converted := ["x"], output := some ["x"] } : StepLog)
        ∈ Ls.steps fsC6 2 { (Ls.new ["a"]).files with relative_paths := true }
    ∧ (["a"] ++ ["x"] : Path)
        = ({ popped := ["a", "x"], recurseAsked := some [("x" : String)], expanded := false,
             converted := ["x"], output := some ["x"] } : StepLog).popped :=
  ⟨⟨rfl, rfl, rfl⟩, by decide,
   (c6_relative_roundtrip fsC6 ["a"] (fun _ => false)).2 ((Ls.new ["a"]).files)
     rfl rfl rfl 2 _ ["x"] (by decide) rfl⟩

/-! C3. -/

/-- Claim C3 (counterexample): copying directory `s` — whose subdirectory `u`
is unreadable — succeeds: `cp` returns `Ok` and silently skips the `u`
subtree, because the traversal uses the best-effort walker. -/
theorem c3_cp_swallows_listing_failure :
    wC3.fs.listDir ["s", "u"] = Except.error ()
    ∧ (cp wC3 ["s"] ["t"] 5).1 = Except.ok ()
    ∧ (cp wC3 ["s"] ["t"] 5).2
        = [CpOp.mkdirAll ["t"], CpOp.createDir ["t", "u"],
           CpOp.copyFile ["s", "f"] ["t", "f"]] :=
  ⟨rfl, rfl, rfl⟩

/-- Claim C3 (amended): during a recursive copy the first failing
destination-side operation — a directory creation or a file copy (or the
initial recursive create of the destination) — aborts the whole `cp` and
returns that error, with every earlier attempted operation having succeeded;
but a failure to list a subdirectory is silently swallowed (the subtree
contributes no entries) and does not abort the copy.  A missing source is
reported as `NotFound` before any operation; the `assert_dir` error is
unreachable. -/
theorem c3_cp_error_policy (w : CpWorld) (self dest : Path) (fuel : Nat) :
    (∀ d, w.fs.listDir d = Except.error () → lsCollect w.fs d = [])
    ∧ ((cp w self dest fuel).1 = Except.ok () → opsOk w (cp w self dest fuel).2)
    ∧ (∀ e0, (cp w self dest fuel).1 = Except.error (CpErr.prim e0) →
        ∃ pre op, (cp w self dest fuel).2 = pre ++ [op] ∧ opsOk w pre
          ∧ opRes w op = Except.error e0)
    ∧ ((cp w self dest fuel).1 = Except.error CpErr.notFound →
        (cp w self dest fuel).2 = [] ∧ w.pathExists self = false)
    ∧ (cp w self dest fuel).1 ≠ Except.error CpErr.notDir := by
  refine ⟨?_, ?_⟩
  · intro d hd
    rw [lsCollect_eq_lsKids]
    unfold lsKids
    rw [hd]
  · by_cases hex : w.pathExists self = false
    · have hcp : cp w self dest fuel = (Except.error CpErr.notFound, []) := by
        unfold cp
        rw [if_pos hex]
      rw [hcp]
      exact ⟨fun h => (nomatch h), fun e0 h => (nomatch h), fun _ => ⟨rfl, hex⟩,
        fun h => nomatch h⟩
    · by_cases hd : w.fs.isDir self = true
      · cases hm : w.mkdirAllRes dest with
        | error e =>
          have hcp : cp w self dest fuel
              = (Except.error (CpErr.prim e), [CpOp.mkdirAll dest]) := by
            unfold cp
            rw [if_neg hex, if_pos hd, if_neg (by rw [hd]; intro h2; cases h2), hm]
          rw [hcp]
          refine ⟨fun h => (nomatch h), ?_, fun h => (nomatch h), fun h => nomatch h⟩
          intro e0 he
          obtain rfl : e0 = e := by
            injection he with h2
            injection h2 with h3
            exact h3.symm
          exact ⟨[], CpOp.mkdirAll dest, rfl, opsOk_nil w, by simpa [opRes] using hm⟩
        | ok u =>
          cases u
          have hcp : cp w self dest fuel
              = ((cpLoop w self dest fuel (lsCollect w.fs self)).1,
                 CpOp.mkdirAll dest :: (cpLoop w self dest fuel (lsCollect w.fs self)).2) := by
            unfold cp
            rw [if_neg hex, if_pos hd, if_neg (by rw [hd]; intro h2; cases h2), hm]
          rw [hcp]
          have hone : opsOk w [CpOp.mkdirAll dest] := by
            intro op hop
            simp at hop
            rw [hop]
            simpa [opRes] using hm
          have hgood := cpGood_prepend w [CpOp.mkdirAll dest] hone
            (cpLoop w self dest fuel (lsCollect w.fs self))
            (cpLoop_good w self dest fuel (lsCollect w.fs self))
          refine ⟨hgood.1, hgood.2.1, ?_, ?_⟩
          · intro h
            exact absurd (hgood.2.2 CpErr.notFound h)
              (by rintro ⟨e0, he0⟩; cases he0)
          · intro h
            rcases hgood.2.2 CpErr.notDir h with ⟨e0, he0⟩
            cases he0
      · cases hc : w.copyRes self dest with
        | ok u =>
          cases u
          have hcp : cp w self dest fuel = (Except.ok (), [CpOp.copyFile self dest]) := by
            unfold cp
            rw [if_neg hex, if_neg hd, hc]
          rw [hcp]
          refine ⟨?_, fun e0 h => (nomatch h), fun h => (nomatch h), fun h => nomatch h⟩
          intro _ op hop
          simp at hop
          rw [hop]
          simpa [opRes] using hc
        | error e =>
          have hcp : cp w self dest fuel
              = (Except.error (CpErr.prim e), [CpOp.copyFile self dest]) := by
            unfold cp
            rw [if_neg hex, if_neg hd, hc]
          rw [hcp]
          refine ⟨fun h => (nomatch h), ?_, fun h => (nomatch h), fun h => nomatch h⟩
          intro e0 he
          obtain rfl : e0 = e := by
            injection he with h2
            injection h2 with h3
            exact h3.symm
          exact ⟨[], CpOp.copyFile self dest, rfl, opsOk_nil w, by simpa [opRes] using hc⟩

theorem c3_cp_error_policy_witness :
    wC3.fs.listDir ["s", "u"] = Except.error ()
    ∧ lsCollect wC3.fs ["s", "u"] = []
    ∧ (cp wC3 ["s"] ["t"] 5).1 = Except.ok ()
    ∧ opsOk wC3 (cp wC3 ["s"] ["t"] 5).2 :=
  ⟨rfl, (c3_cp_error_policy wC3 ["s"] ["t"] 5).1 ["s", "u"] rfl, rfl,
   (c3_cp_error_policy wC3 ["s"] ["t"] 5).2.1 rfl⟩

/-! C7. -/

/-- Claim C7: `rm_matching` on a directory evaluates the predicate on exactly
the immediate children (each visited once, descendants never inspected); a
matching child is removed — a directory child together with its whole
subtree, a file child alone — while every entry not below a matching child
(in particular any non-matching child and all its descendants, and any
matching grandchild whose ancestors do not match) is left untouched.  On a
non-directory target the predicate is evaluated on the target alone: if it
matches, the target is removed (a no-op if it does not exist) and everything
else is untouched; otherwise the call is a complete no-op.  Stated under the
assumption that no removal primitive fails. -/
theorem c7_rm_matching_scope (w : RmWorld) (t : Path) (pred : Path → Bool)
    (hf : ∀ q, w.removeFileErr q = none) (hd : ∀ q, w.removeDirErr q = none) :
    (w.fs.isDir t = true →
      (rm_matching w t pred).2.2 = w.fs.children t
      ∧ ∃ w', (rm_matching w t pred).1 = Except.ok w'
          ∧ (∀ c ∈ w.fs.children t, pred c = true →
              (c ∉ w'.fs.files ∧ c ∉ w'.fs.dirs)
              ∧ (c ∈ w.fs.dirs → ∀ q, (∃ u, q = c ++ u) →
                  q ∉ w'.fs.files ∧ q ∉ w'.fs.dirs))
          ∧ (∀ q, (∀ c ∈ w.fs.children t, pred c = true → c.isPrefixOf q = false) →
              (q ∈ w'.fs.files ↔ q ∈ w.fs.files) ∧ (q ∈ w'.fs.dirs ↔ q ∈ w.fs.dirs)))
    ∧ (w.fs.isDir t = false →
      (rm_matching w t pred).2.2 = [t]
      ∧ (pred t = false → rm_matching w t pred = (Except.ok w, [], [t]))
      ∧ (pred t = true → ∃ w', (rm_matching w t pred).1 = Except.ok w'
          ∧ t ∉ w'.fs.files ∧ t ∉ w'.fs.dirs
          ∧ ∀ q, q ≠ t → ((q ∈ w'.fs.files ↔ q ∈ w.fs.files)
              ∧ (q ∈ w'.fs.dirs ↔ q ∈ w.fs.dirs)))) := by
  constructor
  · intro hdir
    have hrm : rm_matching w t pred = rm_matching_go pred w (w.fs.children t) := by
      unfold rm_matching
      rw [if_pos hdir]
    have hgo := rm_matching_go_no_fail pred (w.fs.children t) w hf hd
    refine ⟨by rw [hrm]; exact hgo.2, ?_⟩
    refine ⟨{ w with fs := foldRm pred w.fs (w.fs.children t) }, by rw [hrm]; exact hgo.1,
      ?_, ?_⟩
    · intro c hc hp
      constructor
      · exact foldRm_kill pred (w.fs.children t) w.fs c hc hp
      · intro hcdir q hq
        refine foldRm_killTree pred (w.fs.children t) w.fs c ?_ hc hp hcdir q hq
        intro x hx
        rw [children_length w.fs t x hx, children_length w.fs t c hc]
    · intro q hg
      refine foldRm_keep pred (w.fs.children t) w.fs q ?_
      intro c hc hp u hqu
      have h1 := hg c hc hp
      have h2 : c.isPrefixOf q = true := (isPrefixOf_iff c q).mpr ⟨u, hqu⟩
      rw [h1] at h2
      cases h2
  · intro hndir
    have hnd : ¬ w.fs.isDir t = true := by
      rw [hndir]
      intro h2
      cases h2
    by_cases hp : pred t = true
    · rcases rm_no_fail w hf hd t with ⟨ops, hrmt⟩
      have hrm : rm_matching w t pred
          = (Except.ok { w with fs := rmPure w.fs t }, ops, [t]) := by
        unfold rm_matching
        rw [if_neg hnd, if_pos hp, hrmt]
      refine ⟨by rw [hrm], ?_, fun _ => ?_⟩
      · intro hp0
        rw [hp0] at hp
        cases hp
      refine ⟨{ w with fs := rmPure w.fs t }, by rw [hrm], ?_, ?_, ?_⟩
      · exact (rmPure_kill w.fs t).1
      · exact (rmPure_kill w.fs t).2
      · intro q hq
        unfold rmPure
        by_cases h1 : w.fs.pathExists t = false
        · rw [if_pos h1]
          exact ⟨Iff.rfl, Iff.rfl⟩
        · rw [if_neg h1, if_neg hnd]
          have hne : (q == t) = false := by
            cases h2 : q == t
            · rfl
            · exact absurd (eq_of_beq h2) hq
          refine ⟨?_, Iff.rfl⟩
          constructor
          · intro h2
            exact (List.mem_filter.mp h2).1
          · intro h2
            exact List.mem_filter.mpr ⟨h2, by simp [hne]⟩
    · have hrm : rm_matching w t pred = (Except.ok w, [], [t]) := by
        unfold rm_matching
        rw [if_neg hnd, if_neg hp]
      exact ⟨by rw [hrm], fun _ => hrm, fun hp1 => absurd hp1 hp⟩

theorem c7_rm_matching_scope_witness :
    ((∀ q, wC7.removeFileErr q = none) ∧ (∀ q, wC7.removeDirErr q = none)
      ∧ wC7.fs.isDir ["t"] = true)
    ∧ (rm_matching wC7 ["t"] predC7).2.2
        = [["t", "d1"], ["t", "keep"], ["t", "f1"]]
    ∧ (rm_matching wC7 ["t"] predC7).1
        = Except.ok { wC7 with
            fs := { dirs := [["t"], ["t", "keep"]], files := [["t", "keep", "x"]] } }
    ∧ predC7 ["t", "keep", "x"] = true := by
  refine ⟨⟨fun q => rfl, fun q => rfl, rfl⟩, ?_, rfl, rfl⟩
  exact ((c7_rm_matching_scope wC7 ["t"] predC7 (fun q => rfl) (fun q => rfl)).1 rfl).1

/-! C5. -/

/-- Claim C5: for any walker built from `Ls::new` (so with an empty,
uninitialized queue), every strict intermediate ancestor of a yielded path
(strictly between the base and the entry) — and likewise of any path ever
held in the pending queue — is a directory the recursion predicate accepted
on its base-relative path; hence the children of a directory the predicate
rejects are never enqueued and no descendant of it is ever yielded,
regardless of the configured filter.  Moreover the predicate is consulted
exactly for the dequeued entries `is_dir` holds for — never for files —
and always on the base-relative path, whatever the `relative_paths`
setting. -/
theorem c5_selective_recursion (fs : FS) (ls : Ls)
    (hinit : ls.initialized = false) (hent : ls.entries = []) :
    (ls.relative_paths = false → ∀ (fuel : Nat) (q : Path), q ∈ Ls.run fs fuel ls →
      ∀ d, (∃ s, d = ls.path ++ s) → d ≠ ls.path → (∃ t, q = d ++ t) → d ≠ q →
        fs.isDir d = true ∧ ls.recurse_if_fn (d.drop ls.path.length) = true)
    ∧ (∀ (fuel : Nat) (q : Path), q ∈ (Ls.exec fs fuel ls).entries →
      ∀ d, (∃ s, d = ls.path ++ s) → d ≠ ls.path → (∃ t, q = d ++ t) → d ≠ q →
        fs.isDir d = true ∧ ls.recurse_if_fn (d.drop ls.path.length) = true)
    ∧ (∀ (fuel : Nat) (log : StepLog), log ∈ Ls.steps fs fuel ls →
        log.recurseAsked
          = (if fs.isDir log.popped then some (log.popped.drop ls.path.length) else none)) := by
  have hroot : ∀ x ∈ (Ls.initStep fs ls).entries, Reach fs ls.path ls.recurse_if_fn x := by
    rw [initStep_of_fresh fs ls hinit hent]
    intro x hx
    exact Reach.root x hx
  have hsound : ∀ fuel : Nat,
      (∀ log ∈ Ls.steps fs fuel ls, Reach fs ls.path ls.recurse_if_fn log.popped)
      ∧ (∀ q ∈ (Ls.exec fs fuel ls).entries, Reach fs ls.path ls.recurse_if_fn q) :=
    fun fuel => stepsAux_sound fs ls.path ls.recurse_if_fn fuel (Ls.initStep fs ls)
      (initStep_path_eq fs ls) (initStep_fn_eq fs ls) hroot
  refine ⟨?_, ?_, ?_⟩
  · intro hrel fuel q hq d hdb hdnb hdq hne
    rcases (mem_run_iff fs fuel ls q).mp hq with ⟨log, hlog, hout⟩
    have hs := stepsAux_shape fs fuel (Ls.initStep fs ls) log hlog
    have hcv : log.converted = log.popped := by
      have h3 := hs.2.2.1
      rw [initStep_relpaths_eq, hrel] at h3
      simpa using h3
    have hqp : q = log.popped := by
      have h4 := hs.2.2.2
      rw [hout] at h4
      by_cases hpass : passesFilter fs (Ls.initStep fs ls).filter log.converted = true
      · rw [if_pos hpass] at h4
        rw [Option.some.inj h4, hcv]
      · rw [if_neg hpass] at h4
        cases h4
    subst hqp
    exact reach_ancestor fs ls.path ls.recurse_if_fn log.popped
      ((hsound fuel).1 log hlog) d hdb hdnb hdq hne
  · intro fuel q hq d hdb hdnb hdq hne
    exact reach_ancestor fs ls.path ls.recurse_if_fn q
      ((hsound fuel).2 q hq) d hdb hdnb hdq hne
  · intro fuel log hlog
    have h1 := (stepsAux_shape fs fuel (Ls.initStep fs ls) log hlog).1
    rw [initStep_path_eq] at h1
    exact h1

theorem c5_selective_recursion_witness :
    (((Ls.new ["r"]).recurse_if (fun rel => rel == ["d"])).initialized = false
      ∧ ((Ls.new ["r"]).recurse_if (fun rel => rel == ["d"])).entries = []
      ∧ ((Ls.new ["r"]).recurse_if (fun rel => rel == ["d"])).relative_paths = false)
    ∧ (["r", "d", "k"] ∈ Ls.run fsTree 4 ((Ls.new ["r"]).recurse_if (fun rel => rel == ["d"]))
      ∧ (∃ s, (["r", "d"] : Path) = ["r"] ++ s)
      ∧ (["r", "d"] : Path) ≠ ["r"]
      ∧ (∃ t, (["r", "d", "k"] : Path) = ["r", "d"] ++ t)
      ∧ (["r", "d"] : Path) ≠ ["r", "d", "k"])
    ∧ fsTree.isDir ["r", "d"] = true
    ∧ ((Ls.new ["r"]).recurse_if (fun rel => rel == ["d"])).recurse_if_fn
        ((["r", "d"] : Path).drop (["r"] : Path).length) = true := by
  refine ⟨⟨rfl, rfl, rfl⟩, ⟨by decide, ⟨["d"], rfl⟩, by decide, ⟨["k"], rfl⟩, by decide⟩,
    ?_⟩
  exact (c5_selective_recursion fsTree ((Ls.new ["r"]).recurse_if (fun rel => rel == ["d"]))
      rfl rfl).1 rfl 4 ["r", "d", "k"] (by decide) ["r", "d"]
      ⟨["d"], rfl⟩ (by decide) ⟨["k"], rfl⟩ (by decide)

/-! C4. -/

/-- Claim C4: the filter influences only which converted paths are emitted,
never the traversal itself (the instrumented step sequence with filter `f` is
the all-filter step sequence with re-derived outputs, so dequeues and
expansions are identical); every reachable directory accepted by the
recursion predicate is eventually dequeued and expanded whatever the filter;
and with full recursion, `dirs()` eventually yields every reachable
directory and `files()` every reachable file. -/
theorem c4_filter_independent_of_expansion (fs : FS) :
    (∀ (ls : Ls) (f : LsFilter) (fuel : Nat),
      Ls.steps fs fuel { ls with filter := f }
        = (Ls.steps fs fuel ls).map (refilter fs f))
    ∧ (∀ (base : Path) (p : Path → Bool) (ls : Ls),
        ls.path = base → ls.recurse_if_fn = p → ls.initialized = false →
        ls.entries = [] →
        ∀ d, Reach fs base p d → fs.isDir d = true → p (d.drop base.length) = true →
          ∃ fuel log, log ∈ Ls.steps fs fuel ls ∧ log.popped = d ∧ log.expanded = true)
    ∧ (∀ (base : Path) (d : Path), Reach fs base (fun _ => true) d →
        fs.isDir d = true →
        ∃ fuel, d ∈ Ls.run fs fuel ((Ls.new base).recurse.dirs))
    ∧ (∀ (base : Path) (q : Path), Reach fs base (fun _ => true) q →
        fs.isFile q = true →
        ∃ fuel, q ∈ Ls.run fs fuel ((Ls.new base).recurse.files)) := by
  have hpop : ∀ (base : Path) (p : Path → Bool) (ls : Ls),
      ls.path = base → ls.recurse_if_fn = p → ls.initialized = false →
      ls.entries = [] →
      ∀ d, Reach fs base p d →
        ∃ fuel log, log ∈ Ls.steps fs fuel ls ∧ log.popped = d := by
    intro base p ls hpath hfn hinit hent d hreach
    have h := reach_popped fs base p d hreach (Ls.initStep fs ls)
      (by rw [initStep_path_eq, hpath])
      (by rw [initStep_fn_eq, hfn])
      (by rw [initStep_of_fresh fs ls hinit hent]; simp only; rw [hpath])
    rcases h with ⟨fuel, hmem⟩
    rcases List.mem_map.mp hmem with ⟨log, hlog, hpp⟩
    exact ⟨fuel, log, hlog, hpp⟩
  refine ⟨fun ls f fuel => steps_filter fs fuel ls f, ?_, ?_, ?_⟩
  · intro base p ls hpath hfn hinit hent d hreach hdir hrec
    rcases hpop base p ls hpath hfn hinit hent d hreach with ⟨fuel, log, hlog, hpp⟩
    refine ⟨fuel, log, hlog, hpp, ?_⟩
    have h2 := (stepsAux_shape fs fuel (Ls.initStep fs ls) log hlog).2.1
    rw [initStep_fn_eq, initStep_path_eq, hpp, hpath, hfn, hdir, hrec] at h2
    exact h2
  · intro base d hreach hdir
    rcases hpop base (fun _ => true) ((Ls.new base).recurse.dirs) rfl rfl rfl rfl d hreach
      with ⟨fuel, log, hlog, hpp⟩
    refine ⟨fuel, (mem_run_iff fs fuel ((Ls.new base).recurse.dirs) d).mpr
      ⟨log, hlog, ?_⟩⟩
    have hs := stepsAux_shape fs fuel (Ls.initStep fs ((Ls.new base).recurse.dirs)) log hlog
    have hcv : log.converted = d := by
      have h3 := hs.2.2.1
      rw [initStep_relpaths_eq, hpp] at h3
      simpa using h3
    have h4 := hs.2.2.2
    rw [initStep_filter_eq, hcv] at h4
    simpa [passesFilter, hdir] using h4
  · intro base q hreach hfile
    rcases hpop base (fun _ => true) ((Ls.new base).recurse.files) rfl rfl rfl rfl q hreach
      with ⟨fuel, log, hlog, hpp⟩
    refine ⟨fuel, (mem_run_iff fs fuel ((Ls.new base).recurse.files) q).mpr
      ⟨log, hlog, ?_⟩⟩
    have hs := stepsAux_shape fs fuel (Ls.initStep fs ((Ls.new base).recurse.files)) log hlog
    have hcv : log.converted = q := by
      have h3 := hs.2.2.1
      rw [initStep_relpaths_eq, hpp] at h3
      simpa using h3
    have h4 := hs.2.2.2
    rw [initStep_filter_eq, hcv] at h4
    simpa [passesFilter, hfile] using h4

theorem c4_filter_independent_of_expansion_witness :
    (Reach fsTree ["r"] (fun _ => true) ["r", "d"] ∧ fsTree.isDir ["r", "d"] = true
      ∧ Reach fsTree ["r"] (fun _ => true) ["r", "d", "k"]
      ∧ fsTree.isFile ["r", "d", "k"] = true)
    ∧ (∃ fuel, ["r", "d"] ∈ Ls.run fsTree fuel ((Ls.new ["r"]).recurse.dirs))
    ∧ (∃ fuel, ["r", "d", "k"] ∈ Ls.run fsTree fuel ((Ls.new ["r"]).recurse.files)) := by
  have hr1 : Reach fsTree ["r"] (fun _ => true) ["r", "d"] :=
    Reach.root ["r", "d"] (by decide)
  have hr2 : Reach fsTree ["r"] (fun _ => true) ["r", "d", "k"] :=
    Reach.step ["r", "d"] ["r", "d", "k"] hr1 rfl rfl (by decide)
  exact ⟨⟨hr1, rfl, hr2, rfl⟩,
    (c4_filter_independent_of_expansion fsTree).2.2.1 ["r"] ["r", "d"] hr1 rfl,
    (c4_filter_independent_of_expansion fsTree).2.2.2 ["r"] ["r", "d", "k"] hr2 rfl⟩

end CaminoFs
